import Mathlib

/-!
Verification of the Rust-binding generator of the candid repository
(`src/rust/candid/src/bindings/rust.rs`).

The source file is embedded shallowly: the candid `Type` algebra becomes the
inductive `Candid.Ty`; the pretty-printing layer (`crate::pretty`, an external
collaborator per spec §1) is modelled by plain string concatenation; fatal
`unreachable!`/`unwrap` arms become `Option` results (`none` = fatal).
Helpers of the candid crate that are referenced by `rust.rs` but whose code is
not part of the given sources (`crate::idl_hash`, `Label::get_id`,
`Label::to_string`, `TypeEnv`, `TypeEnv::as_service`, `TypeEnv::as_func`) are
modelled from the spec and carry a doc comment saying so.
-/

namespace Candid

/-- Modelled from the spec: UTF-8 bytes of one character (the stable string
hash iterates over the raw bytes of the name). -/
def charUtf8 (c : Char) : List Nat :=
  let n := c.toNat
  if n < 128 then [n]
  else if n < 2048 then [192 + n / 64, 128 + n % 64]
  else if n < 65536 then [224 + n / 4096, 128 + (n / 64) % 64, 128 + n % 64]
  else [240 + n / 262144, 128 + (n / 4096) % 64, 128 + (n / 64) % 64, 128 + n % 64]

/-- Modelled from the spec: `crate::idl_hash`, the "stable string-hash shared
with the rest of the toolchain" (spec §4.1), not included under `src/`.
It folds `h * 223 + byte` over the UTF-8 bytes of the string, on `u32`
(hence the explicit `% 2^32`). -/
def idl_hash (s : String) : Nat :=
  ((s.data.map charUtf8).flatten).foldl (fun h b => (h * 223 + b) % 4294967296) 0

/-- `crate::types::Label`: "a textual Name, or a positional/explicit 32-bit
numeric code (two sub-forms)" (spec §3). -/
inductive Label
  | Named (s : String)
  | Id (n : Nat)
  | Unnamed (n : Nat)
deriving DecidableEq, Repr

/-- Modelled from the spec: `Label::get_id` (crate::types, not under `src/`):
the numeric code of a label; a textual label's code is the stable string-hash
of its name. Numeric codes live on `u32`, hence the `% 2^32`. -/
def Label.get_id : Label → Nat
  | .Named s => idl_hash s
  | .Id n => n % 4294967296
  | .Unnamed n => n % 4294967296

/-- Modelled from the spec: `Label`'s `Display` (`id.to_string()` in
`nominalize`): "record-field/variant-field token = field label" (spec §4.3). -/
def Label.display : Label → String
  | .Named s => s
  | .Id n => toString n
  | .Unnamed n => toString n

mutual
/-- `crate::types::Type` (spec §3); `Type` is reserved in Lean, hence `Ty`.
`Function` and `Field` are as in `crate::types`. -/
inductive Ty
  | Null | Bool | Nat | Int
  | Nat8 | Nat16 | Nat32 | Nat64
  | Int8 | Int16 | Int32 | Int64
  | Float32 | Float64 | Text | Reserved | Empty
  | Var (s : String)
  | Principal
  | Opt (t : Ty)
  | Vec (t : Ty)
  | Record (fs : List Field)
  | Variant (fs : List Field)
  | Func (f : Function)
  | Service (ms : List (String × Ty))
  | Class (args : List Ty) (t : Ty)
  | Knot (i : Nat)
  | Unknown

/-- A record or variant field: a `Label` plus a `Ty` (spec §3). -/
inductive Field
  | mk (id : Label) (ty : Ty)

/-- `crate::types::Function`: calling-mode flags plus argument and return
types (spec §3); the modes are opaque at this layer. -/
inductive Function
  | mk (modes : List Nat) (args : List Ty) (rets : List Ty)
end

def Field.id : Field → Label
  | .mk l _ => l

def Field.ty : Field → Ty
  | .mk _ t => t

/-- `is_tuple` (rust.rs lines 7-17): false on an empty field list, else every
field's label id must equal its position (the source casts the position to
`u32`, hence the `% 2^32`). -/
def is_tuple (fs : List Field) : Bool :=
  if fs.isEmpty then false
  else fs.enum.all (fun p => p.2.id.get_id == p.1 % 4294967296)

/-- `KEYWORDS` (rust.rs lines 18-24). -/
def KEYWORDS : List String :=
  ["as", "break", "const", "continue", "crate", "else", "enum", "extern",
   "false", "fn", "for", "if", "impl", "in", "let", "loop", "match", "mod",
   "move", "mut", "pub", "ref", "return", "self", "Self", "static", "struct",
   "super", "trait", "true", "type", "unsafe", "use", "where", "while",
   "async", "await", "dyn", "abstract", "become", "box", "do", "final",
   "macro", "override", "priv", "typeof", "unsized", "virtual", "yield",
   "try"]

/-- Rust's `str::starts_with` with a character predicate: true iff the string
is nonempty and its first character satisfies the predicate. -/
def startsWithPred (s : String) (p : Char → Bool) : Bool :=
  match s.data with
  | [] => false
  | c :: _ => p c

/-- `ident` (rust.rs lines 25-38), the identifier sanitizer; the returned
`RcDoc` is modelled as the string it renders to. -/
def ident (id : String) : String :=
  if id.isEmpty
      || startsWithPred id (fun c => !c.isAlpha && c != '_')
      || id.data.any (fun c => !c.isAlphanum && c != '_') then
    "_" ++ toString (idl_hash id) ++ "_"
  else if ["crate", "self", "super", "Self"].contains id then
    id ++ "_"
  else if KEYWORDS.contains id then
    "r#" ++ id
  else
    id

def Function.modes : Function → List Nat
  | .mk m _ _ => m

def Function.args : Function → List Ty
  | .mk _ a _ => a

def Function.rets : Function → List Ty
  | .mk _ _ r => r

/-- Modelled from the spec: `crate::parser::typing::TypeEnv` (not under
`src/`): "an order-preserving mapping from declaration name (string) to Type.
Insertion order is the declaration emission order and must be preserved;
later insertion of the same name overwrites in place" (spec §3). -/
structure TypeEnv where
  entries : List (String × Ty)

/-- Lookup of a declaration by name (first entry with that key). -/
def TypeEnv.find (env : TypeEnv) (k : String) : Option Ty :=
  match env.entries.find? (fun kv => kv.1 == k) with
  | some kv => some kv.2
  | none => none

/-- `IndexMap::insert` semantics: an existing key keeps its position and gets
the new value; a new key is appended at the end (spec §3). -/
def TypeEnv.insert (env : TypeEnv) (k : String) (v : Ty) : TypeEnv :=
  if env.entries.any (fun kv => kv.1 == k) then
    ⟨env.entries.map (fun kv => if kv.1 == k then (k, v) else kv)⟩
  else
    ⟨env.entries ++ [(k, v)]⟩

/-- `TypePath` (rust.rs lines 179-187). -/
inductive TypePath
  | Id (s : String)
  | Opt
  | Vec
  | RecordField (s : String)
  | VariantField (s : String)
  | Func (s : String)
  | Init

/-- The token a path segment contributes to a synthesized name
(the match inside `path_to_var`, rust.rs lines 191-198). -/
def TypePath.token : TypePath → String
  | .Id id => id
  | .RecordField f => f
  | .VariantField f => f
  | .Opt => "inner"
  | .Vec => "item"
  | .Func id => id
  | .Init => "init"

/-- `path_to_var` (rust.rs lines 188-201): join the segment tokens with
underscores. -/
def path_to_var (path : List TypePath) : String :=
  String.intercalate ("_") (path.map TypePath.token)

/-- The `matches!(path.last(), None | Some(VariantField(_)) | Some(Id(_)))`
test of the `Record` arm of `nominalize` (rust.rs lines 218-221). -/
def recordInlinePos : Option TypePath → Bool
  | none => true
  | some (.VariantField _) => true
  | some (.Id _) => true
  | _ => false

/-- The `None | Some(TypePath::Id(_))` test of the `Variant` arm of
`nominalize` (rust.rs lines 244-245). -/
def variantInlinePos : Option TypePath → Bool
  | none => true
  | some (.Id _) => true
  | _ => false

/-- Termination measure helper: the weight of a final path segment; a path
ending in a named root can never trigger a hoist again. -/
def segWeight : TypePath → Nat
  | .Id _ => 0
  | _ => 1

/-- Termination measure helper: a path ending in a named root (or the empty
path) can never trigger a hoist again. -/
def pathWeight (path : List TypePath) : Nat :=
  (path.getLast?).elim 0 segWeight

mutual
/-- `nominalize` (rust.rs lines 203-316). The `&mut TypeEnv` parameter of the
source is write-only (the function only ever calls `env.0.insert`), so the
traversal is embedded as a pure function returning the list of insertions it
performs, in source order, next to the rewritten type; `Candid.nominalize`
below applies those insertions to an environment in that order, which is
observationally the same as the source's in-place inserts.  The `&mut Vec`
path with push/pop around each recursive call becomes `path ++ [segment]`
at the call.  Note the `Vec` arm pushes `TypePath.Opt`, exactly as the
source does (rust.rs line 212). -/
def nomGo (path : List TypePath) (t : Ty) : List (String × Ty) × Ty :=
  match t with
  | .Opt ty =>
    let r := nomGo (path ++ [TypePath.Opt]) ty
    (r.1, .Opt r.2)
  | .Vec ty =>
    let r := nomGo (path ++ [TypePath.Opt]) ty
    (r.1, .Vec r.2)
  | .Record fs =>
    if recordInlinePos path.getLast? || is_tuple fs then
      let r := nomGoRecordFields path fs
      (r.1, .Record r.2)
    else
      let new_var := path_to_var path
      let r := nomGo [TypePath.Id new_var] (.Record fs)
      (r.1 ++ [(new_var, r.2)], .Var new_var)
  | .Variant fs =>
    if variantInlinePos path.getLast? then
      let r := nomGoVariantFields path fs
      (r.1, .Variant r.2)
    else
      let new_var := path_to_var path
      let r := nomGo [TypePath.Id new_var] (.Variant fs)
      (r.1 ++ [(new_var, r.2)], .Var new_var)
  | .Func f =>
    match f with
    | .mk modes args rets =>
      let ra := nomGoNumList path ("arg") 0 args
      let rr := nomGoNumList path ("ret") 0 rets
      (ra.1 ++ rr.1, .Func (.mk modes ra.2 rr.2))
  | .Service ms =>
    let r := nomGoMeths path ms
    (r.1, .Service r.2)
  | .Class args ty =>
    let ra := nomGoClassArgs path args
    let rt := nomGo path ty
    (ra.1 ++ rt.1, .Class ra.2 rt.2)
  | t => ([], t)
termination_by 2 * sizeOf t + pathWeight path
decreasing_by
  all_goals simp_wf
  all_goals
    simp only [pathWeight, List.getLast?_concat, List.getLast?_singleton,
      Option.elim_some, segWeight]
  all_goals try omega
  all_goals
    (rename_i h
     rcases hL : path.getLast? with _ | s
     · simp [hL, recordInlinePos, variantInlinePos] at h
     · cases s <;>
         simp_all [hL, recordInlinePos, variantInlinePos, Option.elim_some,
           segWeight])

/-- The field traversal of the inline `Record` arm: push
`RecordField(label)` around each field's type. -/
def nomGoRecordFields (path : List TypePath) (fs : List Field) :
    List (String × Ty) × List Field :=
  match fs with
  | [] => ([], [])
  | .mk id ty :: rest =>
    let r := nomGo (path ++ [TypePath.RecordField id.display]) ty
    let rr := nomGoRecordFields path rest
    (r.1 ++ rr.1, .mk id r.2 :: rr.2)
termination_by 2 * sizeOf fs
decreasing_by
  all_goals simp_wf
  all_goals
    simp only [pathWeight, List.getLast?_concat, Option.elim_some, segWeight]
  all_goals omega

/-- The field traversal of the inline `Variant` arm: push
`VariantField(label)` around each field's type. -/
def nomGoVariantFields (path : List TypePath) (fs : List Field) :
    List (String × Ty) × List Field :=
  match fs with
  | [] => ([], [])
  | .mk id ty :: rest =>
    let r := nomGo (path ++ [TypePath.VariantField id.display]) ty
    let rr := nomGoVariantFields path rest
    (r.1 ++ rr.1, .mk id r.2 :: rr.2)
termination_by 2 * sizeOf fs
decreasing_by
  all_goals simp_wf
  all_goals
    simp only [pathWeight, List.getLast?_concat, Option.elim_some, segWeight]
  all_goals omega

/-- The enumerated argument/result traversal of the `Func` arm: push
`Func("arg<i>")` (resp. `Func("ret<i>")`) around the i-th type. -/
def nomGoNumList (path : List TypePath) (pre : String) (i : Nat) (ts : List Ty) :
    List (String × Ty) × List Ty :=
  match ts with
  | [] => ([], [])
  | ty :: rest =>
    let r := nomGo (path ++ [TypePath.Func (pre ++ toString i)]) ty
    let rr := nomGoNumList path pre (i + 1) rest
    (r.1 ++ rr.1, r.2 :: rr.2)
termination_by 2 * sizeOf ts
decreasing_by
  all_goals simp_wf
  all_goals
    simp only [pathWeight, List.getLast?_concat, Option.elim_some, segWeight]
  all_goals omega

/-- The method traversal of the `Service` arm: push `Id(method name)`
around each method type. -/
def nomGoMeths (path : List TypePath) (ms : List (String × Ty)) :
    List (String × Ty) × List (String × Ty) :=
  match ms with
  | [] => ([], [])
  | (meth, ty) :: rest =>
    let r := nomGo (path ++ [TypePath.Id meth]) ty
    let rr := nomGoMeths path rest
    (r.1 ++ rr.1, (meth, r.2) :: rr.2)
termination_by 2 * sizeOf ms
decreasing_by
  all_goals simp_wf
  all_goals
    simp only [pathWeight, List.getLast?_concat, Option.elim_some, segWeight]
  all_goals omega

/-- The constructor-argument traversal of the `Class` arm: push `Init`
around each argument type. -/
def nomGoClassArgs (path : List TypePath) (ts : List Ty) :
    List (String × Ty) × List Ty :=
  match ts with
  | [] => ([], [])
  | ty :: rest =>
    let r := nomGo (path ++ [TypePath.Init]) ty
    let rr := nomGoClassArgs path rest
    (r.1 ++ rr.1, r.2 :: rr.2)
termination_by 2 * sizeOf ts
decreasing_by
  all_goals simp_wf
  all_goals
    simp only [pathWeight, List.getLast?_concat, Option.elim_some, segWeight]
  all_goals omega
end

/-- `nominalize` with the environment threaded through: apply the recorded
insertions, in order, to the write-only environment. -/
def nominalize (env : TypeEnv) (path : List TypePath) (t : Ty) : TypeEnv × Ty :=
  let r := nomGo path t
  (r.1.foldl (fun e kv => e.insert kv.1 kv.2) env, r.2)

/-- `nominalize_all` (rust.rs lines 318-328): fresh output environment; each
declaration nominalized with path `[Id name]` and inserted under its name;
the entry point, when present, nominalized with the empty path. -/
def nominalize_all (env : TypeEnv) (actor : Option Ty) : TypeEnv × Option Ty :=
  let res := env.entries.foldl
    (fun res kv =>
      let r := nominalize res [TypePath.Id kv.1] kv.2
      r.1.insert kv.1 r.2)
    ⟨[]⟩
  match actor with
  | none => (res, none)
  | some ty =>
    let r := nominalize res [] ty
    (r.1, some r.2)

/-! ### The rendering layer

The pretty-printing document combinators (`crate::pretty`, `pretty::RcDoc`)
are an out-of-scope external collaborator (spec §1: "the low-level
pretty-printing/layout engine ... used purely as a rendering backend"), so
documents are modelled as the strings they render to, with line breaks and
grouping flattened; `unreachable!` arms and `unwrap` calls — the fatal
contract violations of spec §7 — are modelled by `Option`, `none` meaning
the translation aborts. -/

/-- Modelled from the spec: `pretty::kwd` — a word followed by a space. -/
def kwd (s : String) : String := s ++ " "

/-- Modelled from the spec: `pretty::enclose`. -/
def enclose (l s r : String) : String := l ++ s ++ r

/-- Modelled from the spec: `pretty::enclose_space`. -/
def enclose_space (l s r : String) : String := l ++ " " ++ s ++ " " ++ r

/-- Modelled from the spec: `pretty::concat` — documents interspersed with a
separator. -/
def concatSep (xs : List String) (sep : String) : String :=
  String.intercalate (sep ++ " ") xs

/-- `pp_label` (rust.rs lines 73-78). -/
def pp_label (l : Label) : String :=
  match l with
  | .Named s => ident s
  | .Id n => "_" ++ toString n ++ "_"
  | .Unnamed n => "_" ++ toString n ++ "_"

mutual
/-- `pp_ty` (rust.rs lines 40-71).  The `unreachable!` arms for `Variant`,
`Class`, `Knot` and `Unknown` return `none` (fatal). -/
def pp_ty (t : Ty) : Option String :=
  match t with
  | .Null => some "()"
  | .Bool => some "bool"
  | .Nat => some "candid::Nat"
  | .Int => some "candid::Int"
  | .Nat8 => some "u8"
  | .Nat16 => some "u16"
  | .Nat32 => some "u32"
  | .Nat64 => some "u64"
  | .Int8 => some "i8"
  | .Int16 => some "i16"
  | .Int32 => some "i32"
  | .Int64 => some "i64"
  | .Float32 => some "f32"
  | .Float64 => some "f64"
  | .Text => some "String"
  | .Reserved => some "candid::Reserved"
  | .Empty => some "candid::Empty"
  | .Var s => some (ident s)
  | .Principal => some "candid::Principal"
  | .Opt t => (pp_ty t).map (fun s => "Option" ++ enclose ("<") s (">"))
  | .Vec t => (pp_ty t).map (fun s => "Vec" ++ enclose ("<") s (">"))
  | .Record fs => pp_record_fields fs
  | .Variant _ => none
  | .Func _ => some "candid::Func"
  | .Service _ => some "candid::Service"
  | .Class _ _ => none
  | .Knot _ => none
  | .Unknown => none
termination_by 2 * sizeOf t

/-- `pp_record_field` (rust.rs lines 80-84). -/
def pp_record_field (f : Field) : Option String :=
  match f with
  | .mk id ty => (pp_ty ty).map (fun s => pp_label id ++ kwd (":") ++ s)
termination_by 2 * sizeOf f

/-- The tuple arm of `pp_record_fields`: each field's type rendered and
suffixed with a comma, concatenated. -/
def ppFieldsTuple (fs : List Field) : Option String :=
  match fs with
  | [] => some ""
  | .mk _ ty :: rest =>
    match pp_ty ty, ppFieldsTuple rest with
    | some s, some r => some (s ++ "," ++ r)
    | _, _ => none
termination_by 2 * sizeOf fs

/-- The named arm of `pp_record_fields`: the rendered fields, in order. -/
def ppFieldsNamed (fs : List Field) : Option (List String) :=
  match fs with
  | [] => some []
  | f :: rest =>
    match pp_record_field f, ppFieldsNamed rest with
    | some s, some r => some (s :: r)
    | _, _ => none
termination_by 2 * sizeOf fs

/-- `pp_record_fields` (rust.rs lines 86-94). -/
def pp_record_fields (fs : List Field) : Option String :=
  if is_tuple fs then
    (ppFieldsTuple fs).map (fun s => enclose ("(") s (")"))
  else
    (ppFieldsNamed fs).map (fun l => enclose_space ("\x7b") (concatSep l (",")) ("\x7d"))
termination_by 2 * sizeOf fs + 1
end

/-- `pp_variant_field` (rust.rs lines 96-102): a `Null` payload is a bare
tag, a `Record` payload is rendered inline right after the tag, any other
payload is rendered parenthesized. -/
def pp_variant_field (f : Field) : Option String :=
  match f with
  | .mk id .Null => some (pp_label id)
  | .mk id (.Record fs) => (pp_record_fields fs).map (fun s => pp_label id ++ s)
  | .mk id ty => (pp_ty ty).map (fun s => pp_label id ++ enclose ("(") s (")"))

/-- `pp_variant_fields` (rust.rs lines 104-107). -/
def pp_variant_fields (fs : List Field) : Option String :=
  (fs.mapM pp_variant_field).map (fun l => enclose_space ("\x7b") (concatSep l (",")) ("\x7d"))

/-- One entry of `pp_defs` (rust.rs lines 109-129): a `Record` body becomes a
struct declaration, a `Variant` body an enum declaration, anything else a
type alias rendered through `pp_ty`. -/
def pp_def1 (id : String) (ty : Ty) : Option String :=
  match ty with
  | .Record fs =>
    (pp_record_fields fs).map (fun s =>
      "#[derive(CandidType, Deserialize)]" ++ "\n" ++ "struct "
        ++ ident id ++ " " ++ s ++ "\n")
  | .Variant fs =>
    (pp_variant_fields fs).map (fun s =>
      "#[derive(CandidType, Deserialize)]" ++ "\n" ++ "enum "
        ++ ident id ++ " " ++ s ++ "\n")
  | _ => (pp_ty ty).map (fun s => kwd ("type") ++ ident id ++ " " ++ "= " ++ s)

/-- `pp_defs` (rust.rs lines 109-129): every declaration of the environment,
in order. -/
def pp_defs (env : TypeEnv) : Option String :=
  (env.entries.mapM (fun kv => pp_def1 kv.1 kv.2)).map
    (fun l => String.intercalate ("\n") l)

/-- `pp_function` (rust.rs lines 131-147): positional `arg<i>` parameters and
a parenthesized return tuple. -/
def pp_function (id : String) (f : Function) : Option String :=
  match f with
  | .mk _ args rets =>
    match args.enum.mapM (fun p =>
        (pp_ty p.2).map (fun s => "arg" ++ toString p.1 ++ ": " ++ s)),
      rets.mapM pp_ty with
    | some as, some rs =>
      some (kwd ("pub fn") ++ ident id ++ enclose ("(") (concatSep as (",")) (")")
        ++ kwd (" ->") ++ enclose ("(") (concatSep rs (",")) (")") ++ ";")
    | _, _ => none

/-- Modelled from the spec: `TypeEnv::as_service` (crate::parser::typing, not
under `src/`): the entry point "must resolve (directly, or through one or
more Var indirections) to a Service" (spec §3); fuel bounds the Var chain. -/
def asServiceGo (env : TypeEnv) : Nat → Ty → Option (List (String × Ty))
  | 0, _ => none
  | fuel + 1, t =>
    match t with
    | .Service ms => some ms
    | .Var s =>
      match env.find s with
      | some t2 => asServiceGo env fuel t2
      | none => none
    | _ => none

/-- `env.as_service` with enough fuel to follow any non-cyclic Var chain. -/
def TypeEnv.as_service (env : TypeEnv) (t : Ty) : Option (List (String × Ty)) :=
  asServiceGo env (env.entries.length + 1) t

/-- Modelled from the spec: `TypeEnv::as_func` (crate::parser::typing, not
under `src/`): a service method type must resolve through Var indirections
to a `Func` (spec §7); fuel bounds the Var chain. -/
def asFuncGo (env : TypeEnv) : Nat → Ty → Option Function
  | 0, _ => none
  | fuel + 1, t =>
    match t with
    | .Func f => some f
    | .Var s =>
      match env.find s with
      | some t2 => asFuncGo env fuel t2
      | none => none
    | _ => none

/-- `env.as_func` with enough fuel to follow any non-cyclic Var chain. -/
def TypeEnv.as_func (env : TypeEnv) (t : Ty) : Option Function :=
  asFuncGo env (env.entries.length + 1) t

/-- `pp_actor` (rust.rs lines 149-160): resolve the actor to a service, then
each method to a function; the two `unwrap`s are the fatal arms. -/
def pp_actor (env : TypeEnv) (actor : Ty) : Option String :=
  match env.as_service actor with
  | none => none
  | some serv =>
    match serv.mapM (fun m =>
        match env.as_func m.2 with
        | none => none
        | some f => pp_function m.1 f) with
    | none => none
    | some sigs =>
      some (kwd ("pub trait SERVICE")
        ++ enclose_space ("\x7b") (String.intercalate ("\n") sigs) ("\x7d"))

/-- `compile` (rust.rs lines 162-177): nominalize everything, then render the
declarations and, when an actor is present, the service trait. -/
def compile (env : TypeEnv) (actor : Option Ty) : Option String :=
  let header := "// This is an experimental feature to generate Rust binding from Candid.\n// You may want to manually adjust some of the types.\n"
  match nominalize_all env actor with
  | (env2, none) => (pp_defs env2).map (fun d => header ++ "\n" ++ d)
  | (env2, some a) =>
    match pp_defs env2, pp_actor env2 a with
    | some d, some s => some (header ++ "\n" ++ d ++ s)
    | _, _ => none

/-! ### Predicates used to state the claims

Everything below is a decidable (executable) predicate over the embedded
data model, used only to state and prove properties; nothing from here is
part of the translated program. -/

mutual
/-- A type with no `Record` or `Variant` anywhere inside ("no nested
aggregate fields", spec §8 round-trip property). -/
def aggFree : Ty → Bool
  | .Record _ => false
  | .Variant _ => false
  | .Opt t => aggFree t
  | .Vec t => aggFree t
  | .Func (.mk _ args rets) => aggFreeList args && aggFreeList rets
  | .Service ms => aggFreeMeths ms
  | .Class args t => aggFreeList args && aggFree t
  | _ => true

def aggFreeList : List Ty → Bool
  | [] => true
  | t :: ts => aggFree t && aggFreeList ts

def aggFreeMeths : List (String × Ty) → Bool
  | [] => true
  | (_, t) :: ms => aggFree t && aggFreeMeths ms

def aggFreeFields : List Field → Bool
  | [] => true
  | .mk _ t :: fs => aggFree t && aggFreeFields fs
end

/-- A declaration body that is a `Record` or `Variant` with no nested
aggregate fields — an "already flat" declaration (spec §8). -/
def flatBody : Ty → Bool
  | .Record fs => aggFreeFields fs
  | .Variant fs => aggFreeFields fs
  | _ => false

/-- Every declaration body of the environment is flat. -/
def flatEnv (env : TypeEnv) : Bool :=
  env.entries.all (fun kv => flatBody kv.2)

mutual
/-- A type in a nested (non-root, non-variant-payload) position respecting
the nominalization invariant: no `Variant` at all, and a `Record` only when
tuple-shaped (and itself recursively clean). -/
def nestedOk : Ty → Bool
  | .Record fs => is_tuple fs && nestedOkFields fs
  | .Variant _ => false
  | .Opt t => nestedOk t
  | .Vec t => nestedOk t
  | .Func (.mk _ args rets) => nestedOkList args && nestedOkList rets
  | .Service ms => nestedOkMeths ms
  | .Class args t => nestedOkList args && nestedOk t
  | _ => true

def nestedOkFields : List Field → Bool
  | [] => true
  | .mk _ t :: fs => nestedOk t && nestedOkFields fs

def nestedOkList : List Ty → Bool
  | [] => true
  | t :: ts => nestedOk t && nestedOkList ts

def nestedOkMeths : List (String × Ty) → Bool
  | [] => true
  | (_, t) :: ms => nestedOk t && nestedOkMeths ms
end

/-- A variant-field payload respecting the invariant: an inline `Record`
(clause (3) of the invariant) whose fields are nested-clean, or any
nested-clean type. -/
def vpayOk (t : Ty) : Bool :=
  match t with
  | .Record gs => nestedOkFields gs
  | t => nestedOk t

/-- The central invariant (spec §3) for the direct value of an environment
entry or the rewritten entry point: a `Record` here may sit inline (clause
(1)) with nested-clean fields; a `Variant` here may sit inline with
`vpayOk` payloads; anything else must be nested-clean throughout. -/
def claimOk (t : Ty) : Bool :=
  match t with
  | .Record fs => nestedOkFields fs
  | .Variant fs => fs.all (fun f => vpayOk f.ty)
  | t => nestedOk t

/-- The invariant over a whole environment. -/
def envClaimOk (env : TypeEnv) : Bool :=
  env.entries.all (fun kv => claimOk kv.2)

/-- The invariant over an optional entry point. -/
def actorClaimOk : Option Ty → Bool
  | none => true
  | some t => claimOk t

/-- The invariant a `nominalize` result satisfies, as a function of the path
it was produced under: at a root-like path (empty, or ending in a named
root) the full entry invariant; at a variant-field path the payload
invariant; anywhere else the nested invariant. -/
def ctxOk (path : List TypePath) (t : Ty) : Bool :=
  if variantInlinePos path.getLast? then claimOk t
  else if recordInlinePos path.getLast? then vpayOk t
  else nestedOk t

/-- A service-method type of the shape the upstream type checker guarantees:
a named reference or a function type (spec §7: "a Service method not
ultimately a Func" is rejected upstream). -/
def methShape : Ty → Bool
  | .Var _ => true
  | .Func _ => true
  | _ => false

/-- A class body of the shape the upstream type checker guarantees: a named
reference or a service (spec §3: class types only describe an actor's
constructor signature; spec §7: the entry point resolves to a Service). -/
def classBodyShape : Ty → Bool
  | .Var _ => true
  | .Service _ => true
  | _ => false

mutual
/-- Structural well-formedness of an input type (spec §7): every service
method is a named reference or a function, every class body is a named
reference or a service, recursively. -/
def swf : Ty → Bool
  | .Opt t => swf t
  | .Vec t => swf t
  | .Record fs => swfFields fs
  | .Variant fs => swfFields fs
  | .Func (.mk _ args rets) => swfList args && swfList rets
  | .Service ms => swfMeths ms
  | .Class args t => swfList args && swf t && classBodyShape t
  | _ => true

def swfFields : List Field → Bool
  | [] => true
  | .mk _ t :: fs => swf t && swfFields fs

def swfList : List Ty → Bool
  | [] => true
  | t :: ts => swf t && swfList ts

def swfMeths : List (String × Ty) → Bool
  | [] => true
  | (_, t) :: ms => methShape t && swf t && swfMeths ms
end

/-- Structural well-formedness over a whole environment. -/
def envSwf (env : TypeEnv) : Bool :=
  env.entries.all (fun kv => swf kv.2)

/-- Structural well-formedness over an optional entry point. -/
def actorSwf : Option Ty → Bool
  | none => true
  | some t => swf t

mutual
/-- No internal recursion sentinel (`Knot`, `Unknown`) and no `Class`
anywhere inside a type. -/
def noBad : Ty → Bool
  | .Class _ _ => false
  | .Knot _ => false
  | .Unknown => false
  | .Opt t => noBad t
  | .Vec t => noBad t
  | .Record fs => noBadFields fs
  | .Variant fs => noBadFields fs
  | .Func (.mk _ args rets) => noBadList args && noBadList rets
  | .Service ms => noBadMeths ms
  | _ => true

def noBadFields : List Field → Bool
  | [] => true
  | .mk _ t :: fs => noBad t && noBadFields fs

def noBadList : List Ty → Bool
  | [] => true
  | t :: ts => noBad t && noBadList ts

def noBadMeths : List (String × Ty) → Bool
  | [] => true
  | (_, t) :: ms => noBad t && noBadMeths ms
end

/-- No sentinel/class over a whole environment. -/
def envNoBad (env : TypeEnv) : Bool :=
  env.entries.all (fun kv => noBad kv.2)

/-- No sentinel/class over an optional entry point. -/
def actorNoBad : Option Ty → Bool
  | none => true
  | some t => noBad t

mutual
/-- `pp_ty t` succeeds exactly on types with no `Variant`, `Class`, `Knot`
or `Unknown` in a position `pp_ty` recurses into (`Func`/`Service` render as
opaque markers, so their contents are not reached). -/
def ppOk : Ty → Bool
  | .Variant _ => false
  | .Class _ _ => false
  | .Knot _ => false
  | .Unknown => false
  | .Opt t => ppOk t
  | .Vec t => ppOk t
  | .Record fs => ppOkFields fs
  | _ => true

def ppOkFields : List Field → Bool
  | [] => true
  | .mk _ t :: fs => ppOk t && ppOkFields fs
end

/-- A variant-field payload `pp_variant_field` can render: a `Null` tag, an
inline `Record` with renderable fields, or any other renderable type. -/
def payOk (t : Ty) : Bool :=
  match t with
  | .Record gs => ppOkFields gs
  | t => ppOk t

mutual
/-- What `nominalize` guarantees of a type sitting at a named root (an
environment entry value): `pp_defs` can render it, and if the actor
resolution reaches it, its service methods recursively satisfy the same,
with function arguments/results renderable. -/
def topOk : Ty → Bool
  | .Record fs => ppOkFields fs
  | .Variant fs => topVariantFields fs
  | .Func (.mk _ args rets) => args.all ppOk && rets.all ppOk
  | .Service ms => topOkMeths ms
  | .Class _ _ => false
  | .Knot _ => false
  | .Unknown => false
  | .Opt t => ppOk t
  | .Vec t => ppOk t
  | t => ppOk t

def topVariantFields : List Field → Bool
  | [] => true
  | .mk _ t :: fs => payOk t && topVariantFields fs

def topOkMeths : List (String × Ty) → Bool
  | [] => true
  | (_, t) :: ms => topOk t && topOkMeths ms
end

/-- `topOk` over a whole environment. -/
def envTopOk (env : TypeEnv) : Bool :=
  env.entries.all (fun kv => topOk kv.2)

/-- The renderability guarantee a `nominalize` result satisfies, as a
function of the path it was produced under (the analogue of `ctxOk` for the
`pp` layer). -/
def ctxPpOk (path : List TypePath) (t : Ty) : Bool :=
  if variantInlinePos path.getLast? then topOk t
  else if recordInlinePos path.getLast? then payOk t
  else ppOk t


/-- The resolution half of the well-formedness precondition of `compile`
(spec §7): the entry point, when present, resolves to a service whose every
method type resolves to a function. -/
def actorResolves (env : TypeEnv) (actor : Option Ty) : Bool :=
  match actor with
  | none => true
  | some a =>
    match env.as_service a with
    | none => false
    | some ms => ms.all (fun m => (env.as_func m.2).isSome)

/-- The names synthesized by the hoists performed when nominalizing the
whole input (environment entries in order, then the entry point). -/
def hoistNames (env : TypeEnv) (actor : Option Ty) : List String :=
  (env.entries.map
    (fun kv => (nomGo [TypePath.Id kv.1] kv.2).1.map Prod.fst)).flatten
  ++ (match actor with
      | none => []
      | some a => (nomGo [] a).1.map Prod.fst)

/-- No hoisted declaration name collides with an input declaration name
(the "open risk" of spec §9, excluded by hypothesis). -/
def hoistFresh (env : TypeEnv) (actor : Option Ty) : Bool :=
  (hoistNames env actor).all
    (fun k => !(env.entries.any (fun kv => kv.1 == k)))

/-- The identifier grammar of the target produced without the raw-identifier
escape: nonempty, first character an ASCII letter or underscore, remainder
ASCII alphanumeric or underscore (spec §8 sanitizer totality). -/
def plainIdentOk (s : String) : Bool :=
  match s.data with
  | [] => false
  | c :: cs => (c.isAlpha || c == '_') && cs.all (fun c => c.isAlphanum || c == '_')

/-- The raw-identifier escaped form of the grammar: the `r#` marker followed
by an alphanumeric/underscore remainder. -/
def rawIdentOk (s : String) : Bool :=
  match s.data with
  | c1 :: c2 :: cs => c1 == 'r' && c2 == '#' && cs.all (fun c => c.isAlphanum || c == '_')
  | _ => false

/-- The target identifier grammar of spec §8: "starts with
letter/underscore/escape-marker, remainder alphanumeric/underscore". -/
def identGrammarOk (s : String) : Bool :=
  plainIdentOk s || rawIdentOk s

/-- The hash-fallback condition as claim C4 words it, spelled independently
of the code: empty, or first character not an ASCII letter nor an
underscore, or some character neither ASCII alphanumeric nor underscore. -/
def fallbackCond (s : String) : Prop :=
  s.data = [] ∨
    (∃ c cs, s.data = c :: cs ∧ ¬c.isAlpha = true ∧ c ≠ '_') ∨
    (∃ c ∈ s.data, ¬c.isAlphanum = true ∧ c ≠ '_')

/-- The tuple condition exactly as the spec words it for claim C3: "its
fields, taken in declared order, have numeric labels exactly 0,1,2,…,n−1"
(no non-emptiness requirement). -/
def specTupleCond (fs : List Field) : Prop :=
  ∀ i (h : i < fs.length),
    (fs.get ⟨i, h⟩).id = Label.Id i ∨ (fs.get ⟨i, h⟩).id = Label.Unnamed i

mutual
/-- Only the internal recursion sentinels excluded: no `Knot` or `Unknown`
inside a type; `Class` is allowed.  This is the literal reading of "no
unresolved recursion sentinels reachable" in claim C5's precondition. -/
def noKnot : Ty → Bool
  | .Knot _ => false
  | .Unknown => false
  | .Opt t => noKnot t
  | .Vec t => noKnot t
  | .Record fs => noKnotFields fs
  | .Variant fs => noKnotFields fs
  | .Func (.mk _ args rets) => noKnotList args && noKnotList rets
  | .Service ms => noKnotMeths ms
  | .Class args t => noKnotList args && noKnot t
  | _ => true

def noKnotFields : List Field → Bool
  | [] => true
  | .mk _ t :: fs => noKnot t && noKnotFields fs

def noKnotList : List Ty → Bool
  | [] => true
  | t :: ts => noKnot t && noKnotList ts

def noKnotMeths : List (String × Ty) → Bool
  | [] => true
  | (_, t) :: ms => noKnot t && noKnotMeths ms
end

/-- `noKnot` over a whole environment. -/
def envNoKnot (env : TypeEnv) : Bool :=
  env.entries.all (fun kv => noKnot kv.2)

/-! ## Theorems -/

/-! ### The identifier sanitizer (claims C4, C8, C9, C10) -/

theorem digitChar_isDigit (m : Nat) (h : m < 10) :
    (Nat.digitChar m).isDigit = true := by
  interval_cases m <;> decide

theorem toDigitsCore_digits (fuel : Nat) :
    ∀ (n : Nat) (acc : List Char), (∀ c ∈ acc, c.isDigit = true) →
      ∀ c ∈ Nat.toDigitsCore 10 fuel n acc, c.isDigit = true := by
  induction fuel with
  | zero => intro n acc hacc; simpa [Nat.toDigitsCore] using hacc
  | succ fuel ih =>
    intro n acc hacc c hc
    simp only [Nat.toDigitsCore] at hc
    by_cases h0 : n / 10 = 0
    · rw [if_pos h0] at hc
      rcases List.mem_cons.mp hc with rfl | hc
      · exact digitChar_isDigit _ (Nat.mod_lt _ (by norm_num))
      · exact hacc _ hc
    · rw [if_neg h0] at hc
      refine ih _ _ ?_ c hc
      intro d hd
      rcases List.mem_cons.mp hd with rfl | hd
      · exact digitChar_isDigit _ (Nat.mod_lt _ (by norm_num))
      · exact hacc _ hd

theorem toString_nat_digits (n : Nat) :
    ∀ c ∈ (toString n).data, c.isDigit = true := by
  have : (toString n).data = Nat.toDigitsCore 10 (n + 1) n [] := rfl
  rw [this]
  exact toDigitsCore_digits (n + 1) n [] (by simp)

theorem hashForm_grammar (n : Nat) :
    identGrammarOk ("_" ++ toString n ++ "_") = true := by
  have hd : ("_" ++ toString n ++ "_").data = '_' :: ((toString n).data ++ ['_']) := by
    rw [String.data_append, String.data_append]
    rfl
  unfold identGrammarOk plainIdentOk
  rw [hd]
  simp only [Bool.or_eq_true, List.all_append, Bool.and_eq_true, List.all_eq_true]
  refine Or.inl ⟨by decide, ⟨fun c hc => ?_, by decide⟩⟩
  have := toString_nat_digits n c hc
  simp [Char.isAlphanum, this]

/-- A string whose first character is an underscore is not one of the
(letter-initial) reserved words. -/
theorem underscore_not_reserved (s : String) (cs : List Char)
    (hd : s.data = '_' :: cs) (l : List String)
    (hl : ∀ t ∈ l, t.data.head? ≠ some '_') :
    l.contains s = false := by
  rw [Bool.eq_false_iff]
  intro hmem
  have := hl s (List.elem_iff.mp hmem)
  rw [hd] at this
  exact this rfl

/-- **C4, counterexample**: the claim says a raw name whose first character
is not an ASCII letter always gets the hash-fallback form; but `"_a"` starts
with a non-letter (an underscore) and `ident` returns it unchanged, which is
not the hash form. -/
theorem ident_underscore_not_hashed :
    '_'.isAlpha = false ∧ ident "_a" = "_a" ∧
      ident "_a" ≠ "_" ++ toString (idl_hash "_a") ++ "_" := by
  refine ⟨by decide, by decide, ?_⟩
  intro h
  rw [show ident "_a" = "_a" from by decide] at h
  exact absurd (congrArg String.length h) (by decide)

/-- **C4** (amended): `ident` returns the synthesized `"_" ++ hash ++ "_"`
identifier exactly when the raw string is empty, or its first character is
neither an ASCII letter nor an underscore, or some character is not an ASCII
letter/digit/underscore; in particular a name made of ASCII
letters/digits/underscores whose first character is an underscore is *not*
hashed: it is returned unchanged. -/
theorem ident_fallback_exact (s : String) :
    (fallbackCond s → ident s = "_" ++ toString (idl_hash s) ++ "_") ∧
    ((∃ cs, s.data = '_' :: cs) ∧ (∀ c ∈ s.data, c.isAlphanum = true ∨ c = '_') →
      ident s = s) := by
  constructor
  · intro h
    have hcond : (s.isEmpty
        || startsWithPred s (fun c => !c.isAlpha && c != '_')
        || s.data.any (fun c => !c.isAlphanum && c != '_')) = true := by
      rcases h with h | ⟨c, cs, hd, hna, hne⟩ | ⟨c, hc, hna, hne⟩
      · have hs : s = "" := String.ext (by simpa using h)
        subst hs
        decide
      · have h1 : startsWithPred s (fun c => !c.isAlpha && c != '_') = true := by
          simp only [startsWithPred, hd]
          simp only [Bool.not_eq_true] at hna
          simp [hna, hne]
        simp [h1]
      · have h2 : (s.data.any fun c => !c.isAlphanum && c != '_') = true := by
          rw [List.any_eq_true]
          refine ⟨c, hc, ?_⟩
          simp only [Bool.not_eq_true] at hna
          simp [hna, hne]
        simp [h2]
    rw [ident, if_pos hcond]
  · rintro ⟨⟨cs, hd⟩, hall⟩
    have e0 : s.isEmpty = false := by
      rw [Bool.eq_false_iff]
      intro hT
      rw [String.isEmpty_iff] at hT
      subst hT
      exact absurd hd (by intro h; injection h)
    have e1 : startsWithPred s (fun c => !c.isAlpha && c != '_') = false := by
      simp only [startsWithPred, hd]
      decide
    have e2 : (s.data.any fun c => !c.isAlphanum && c != '_') = false := by
      rw [Bool.eq_false_iff]
      intro hT
      obtain ⟨c, hc, hcf⟩ := List.any_eq_true.mp hT
      rcases hall c hc with h | h <;> simp [h] at hcf
    have e3 : (["crate", "self", "super", "Self"].contains s) = false :=
      underscore_not_reserved s cs hd _ (by decide)
    have e4 : (KEYWORDS.contains s) = false :=
      underscore_not_reserved s cs hd _ (by decide)
    rw [ident, e0, e1, e2, e3, e4]
    simp

/-- **C4, witness**: the amended theorem applied at the concrete inputs
`"a b"` (a space forces the hash fallback) and `"_a"` (leading underscore,
returned unchanged). -/
theorem ident_fallback_exact_witness :
    fallbackCond "a b" ∧ ident "a b" = "_" ++ toString (idl_hash "a b") ++ "_" ∧
      ident "_a" = "_a" := by
  have h1 : fallbackCond "a b" :=
    Or.inr (Or.inr ⟨' ', by decide, by decide, by decide⟩)
  refine ⟨h1, (ident_fallback_exact "a b").1 h1, ?_⟩
  exact (ident_fallback_exact "_a").2 ⟨⟨['a'], rfl⟩, by decide⟩

/-- **C8**: the sanitizer is total: for every input string its output is a
non-empty identifier of the target grammar (plain letter/underscore-initial
form or `r#`-escaped form), and as a pure function it is deterministic. -/
theorem ident_total_grammar (s : String) :
    identGrammarOk (ident s) = true ∧ ident s = ident s := by
  refine ⟨?_, rfl⟩
  rw [ident]
  split
  · exact hashForm_grammar (idl_hash s)
  · rename_i hno
    split
    · rename_i h4
      have : s ∈ ["crate", "self", "super", "Self"] := List.elem_iff.mp h4
      fin_cases this <;> decide
    · rename_i h4
      split
      · have hall : ∀ c ∈ s.data, (c.isAlphanum || c == '_') = true := by
          simp only [Bool.or_eq_true, not_or, Bool.not_eq_true] at hno
          have hAny := hno.2
          rw [Bool.eq_false_iff] at hAny
          intro c hc
          by_cases ha : c.isAlphanum
          · simp [ha]
          · by_cases hu : c = '_'
            · simp [hu]
            · exfalso
              apply hAny
              rw [List.any_eq_true]
              exact ⟨c, hc, by simp [ha, hu]⟩
        have hd2 : ("r#" ++ s).data = 'r' :: '#' :: s.data := by
          rw [String.data_append]
          rfl
        unfold identGrammarOk
        rw [Bool.or_eq_true]
        refine Or.inr ?_
        unfold rawIdentOk
        rw [hd2]
        simp only [Bool.and_eq_true, List.all_eq_true]
        exact ⟨⟨by decide, by decide⟩, hall⟩
      · simp only [Bool.or_eq_true, not_or, Bool.not_eq_true] at hno
        obtain ⟨⟨hE, hSW⟩, hAny⟩ := hno
        rw [Bool.eq_false_iff] at hE hSW hAny
        have hdne : s.data ≠ [] := by
          intro h0
          exact hE (by
            rw [String.isEmpty_iff]
            exact String.ext (by simp [h0]))
        obtain ⟨c, cs, hsd⟩ := List.exists_cons_of_ne_nil hdne
        unfold identGrammarOk
        rw [Bool.or_eq_true]
        refine Or.inl ?_
        simp only [plainIdentOk, hsd]
        simp only [Bool.and_eq_true, List.all_eq_true]
        refine ⟨?_, ?_⟩
        · by_cases ha : c.isAlpha
          · simp [ha]
          · by_cases hu : c = '_'
            · simp [hu]
            · exfalso
              apply hSW
              simp only [startsWithPred, hsd]
              simp [ha, hu]
        · intro d hd
          by_cases ha : d.isAlphanum
          · simp [ha]
          · by_cases hu : d = '_'
            · simp [hu]
            · exfalso
              apply hAny
              rw [List.any_eq_true]
              exact ⟨d, by rw [hsd]; exact List.mem_cons_of_mem c hd,
                by simp [ha, hu]⟩

/-- **C9**: `ident "type"` is the `r#`-escaped form, which differs from the
literal `"type"` and is not itself a plain (unescaped) identifier, so it can
never coincide with an unescaped user identifier; `ident "self"` is the
trailing-underscore contextual form `"self_"`, distinct from the
`r#`-escape form. -/
theorem ident_keyword_escape :
    ident "type" = "r#type" ∧ "r#type" ≠ "type" ∧
      plainIdentOk "r#type" = false ∧ ident "r#type" ≠ "r#type" ∧
      ident "self" = "self_" ∧ "self_" ≠ "r#self" := by
  refine ⟨by decide, by decide, by decide, ?_, by decide, by decide⟩
  intro h
  rw [show ident "r#type" = "_" ++ toString (idl_hash "r#type") ++ "_" from by decide] at h
  exact absurd (congrArg (fun t => t.data.head?) h) (by decide)

/-- **C10**: the sanitizer merges distinct valid-identifier inputs even
outside the hash fallback: `"self"` and `"self_"` are different plain
identifiers with the same sanitized output `"self_"`. -/
theorem ident_not_injective :
    ident "self" = ident "self_" ∧ "self" ≠ "self_" ∧
      plainIdentOk "self" = true ∧ plainIdentOk "self_" = true := by
  decide

/-! ### Tuple detection (claim C3) -/

/-- **C3, counterexample**: for the empty record the spec-side condition
"numeric labels exactly 0..n−1" holds vacuously, yet `is_tuple` is false, so
the claimed biconditional fails at field count n = 0. -/
theorem is_tuple_spec_false_on_empty :
    specTupleCond [] ∧ is_tuple [] = false := by
  constructor
  · intro i h
    exact absurd h (Nat.not_lt_zero i)
  · rfl

/-- **C3** (amended): `is_tuple` holds iff the record is *non-empty* and the
i-th field's label id (its numeric code, reduced on `u32` as the source's
cast does) equals i for every position i. -/
theorem is_tuple_iff (fs : List Field) :
    is_tuple fs = true ↔
      fs ≠ [] ∧ ∀ i (h : i < fs.length),
        (fs.get ⟨i, h⟩).id.get_id = i % 4294967296 := by
  rw [is_tuple]
  by_cases hE : fs = []
  · subst hE
    simp
  · have hE' : fs.isEmpty = false := by simp [List.isEmpty_iff, hE]
    rw [hE']
    simp only [Bool.false_eq_true, if_false, List.all_eq_true]
    constructor
    · intro H
      refine ⟨hE, fun i h => ?_⟩
      have hlen : i < fs.enum.length := by simpa using h
      have hmem : fs.enum[i] ∈ fs.enum := List.getElem_mem hlen
      have := H _ hmem
      rw [List.getElem_enum] at this
      simpa [List.get_eq_getElem] using this
    · rintro ⟨-, H⟩ x hx
      obtain ⟨i, hi, rfl⟩ := List.mem_iff_getElem.mp hx
      have hlen : i < fs.length := by simpa using hi
      rw [List.getElem_enum]
      simpa [List.get_eq_getElem] using H i hlen

/-! ### Variant payload records stay inline (claim C6) -/

/-- **C6**: at any variant-field position, `nominalize` keeps a `Record`
payload in place (the result is still an inline `Record`, never a reference
to a hoisted declaration), and `pp_variant_field` renders such a field as
the tag followed immediately by the record's field list. -/
theorem variant_record_payload_inline (env : TypeEnv) (path : List TypePath)
    (l : String) (lab : Label) (gs : List Field) :
    (∃ gs', (nominalize env (path ++ [TypePath.VariantField l]) (Ty.Record gs)).2
        = Ty.Record gs') ∧
    pp_variant_field (Field.mk lab (Ty.Record gs))
      = (pp_record_fields gs).map (fun s => pp_label lab ++ s) := by
  constructor
  · have hpos : recordInlinePos ((path ++ [TypePath.VariantField l]).getLast?)
        = true := by
      rw [List.getLast?_concat]
      rfl
    refine ⟨(nomGoRecordFields (path ++ [TypePath.VariantField l]) gs).2, ?_⟩
    simp only [nominalize]
    rw [nomGo.eq_def]
    simp only [hpos, Bool.true_or, if_true]
  · simp [pp_variant_field]

/-! ### Round trip on flat environments (claim C7) -/

mutual
theorem nomGo_aggFree (path : List TypePath) (t : Ty) (h : aggFree t = true) :
    nomGo path t = ([], t) := by
  cases t with
  | Opt ty =>
    have h' : aggFree ty = true := by simpa [aggFree] using h
    simp [nomGo, nomGo_aggFree (path ++ [TypePath.Opt]) ty h']
  | Vec ty =>
    have h' : aggFree ty = true := by simpa [aggFree] using h
    simp [nomGo, nomGo_aggFree (path ++ [TypePath.Opt]) ty h']
  | Record fs => simp [aggFree] at h
  | Variant fs => simp [aggFree] at h
  | Func f =>
    cases f with
    | mk modes args rets =>
      have h' : aggFreeList args = true ∧ aggFreeList rets = true := by
        simpa [aggFree, Bool.and_eq_true] using h
      simp [nomGo, nomGoNumList_aggFree path ("arg") 0 args h'.1,
        nomGoNumList_aggFree path ("ret") 0 rets h'.2]
  | Service ms =>
    have h' : aggFreeMeths ms = true := by simpa [aggFree] using h
    simp [nomGo, nomGoMeths_aggFree path ms h']
  | Class args ty =>
    have h' : aggFreeList args = true ∧ aggFree ty = true := by
      simpa [aggFree, Bool.and_eq_true] using h
    simp [nomGo, nomGoClassArgs_aggFree path args h'.1,
      nomGo_aggFree path ty h'.2]
  | Null => simp [nomGo]
  | Bool => simp [nomGo]
  | Nat => simp [nomGo]
  | Int => simp [nomGo]
  | Nat8 => simp [nomGo]
  | Nat16 => simp [nomGo]
  | Nat32 => simp [nomGo]
  | Nat64 => simp [nomGo]
  | Int8 => simp [nomGo]
  | Int16 => simp [nomGo]
  | Int32 => simp [nomGo]
  | Int64 => simp [nomGo]
  | Float32 => simp [nomGo]
  | Float64 => simp [nomGo]
  | Text => simp [nomGo]
  | Reserved => simp [nomGo]
  | Empty => simp [nomGo]
  | Var s => simp [nomGo]
  | Principal => simp [nomGo]
  | Knot i => simp [nomGo]
  | Unknown => simp [nomGo]
termination_by sizeOf t

theorem nomGoNumList_aggFree (path : List TypePath) (pre : String) (i : Nat)
    (ts : List Ty) (h : aggFreeList ts = true) :
    nomGoNumList path pre i ts = ([], ts) := by
  cases ts with
  | nil => simp [nomGoNumList]
  | cons ty rest =>
    have h' : aggFree ty = true ∧ aggFreeList rest = true := by
      simpa [aggFreeList, Bool.and_eq_true] using h
    simp [nomGoNumList, nomGo_aggFree _ ty h'.1,
      nomGoNumList_aggFree path pre (i + 1) rest h'.2]
termination_by sizeOf ts

theorem nomGoMeths_aggFree (path : List TypePath) (ms : List (String × Ty))
    (h : aggFreeMeths ms = true) :
    nomGoMeths path ms = ([], ms) := by
  cases ms with
  | nil => simp [nomGoMeths]
  | cons kv rest =>
    cases kv with
    | mk meth ty =>
      have h' : aggFree ty = true ∧ aggFreeMeths rest = true := by
        simpa [aggFreeMeths, Bool.and_eq_true] using h
      simp [nomGoMeths, nomGo_aggFree _ ty h'.1,
        nomGoMeths_aggFree path rest h'.2]
termination_by sizeOf ms

theorem nomGoClassArgs_aggFree (path : List TypePath) (ts : List Ty)
    (h : aggFreeList ts = true) :
    nomGoClassArgs path ts = ([], ts) := by
  cases ts with
  | nil => simp [nomGoClassArgs]
  | cons ty rest =>
    have h' : aggFree ty = true ∧ aggFreeList rest = true := by
      simpa [aggFreeList, Bool.and_eq_true] using h
    simp [nomGoClassArgs, nomGo_aggFree _ ty h'.1,
      nomGoClassArgs_aggFree path rest h'.2]
termination_by sizeOf ts

theorem nomGoRecordFields_aggFree (path : List TypePath) (fs : List Field)
    (h : aggFreeFields fs = true) :
    nomGoRecordFields path fs = ([], fs) := by
  cases fs with
  | nil => simp [nomGoRecordFields]
  | cons f rest =>
    cases f with
    | mk id ty =>
      have h' : aggFree ty = true ∧ aggFreeFields rest = true := by
        simpa [aggFreeFields, Bool.and_eq_true] using h
      simp [nomGoRecordFields, nomGo_aggFree _ ty h'.1,
        nomGoRecordFields_aggFree path rest h'.2]
termination_by sizeOf fs

theorem nomGoVariantFields_aggFree (path : List TypePath) (fs : List Field)
    (h : aggFreeFields fs = true) :
    nomGoVariantFields path fs = ([], fs) := by
  cases fs with
  | nil => simp [nomGoVariantFields]
  | cons f rest =>
    cases f with
    | mk id ty =>
      have h' : aggFree ty = true ∧ aggFreeFields rest = true := by
        simpa [aggFreeFields, Bool.and_eq_true] using h
      simp [nomGoVariantFields, nomGo_aggFree _ ty h'.1,
        nomGoVariantFields_aggFree path rest h'.2]
termination_by sizeOf fs
end

/-- A flat declaration body nominalizes, at its named root, to itself with
no insertions. -/
theorem nomGo_flatBody (k : String) (t : Ty) (h : flatBody t = true) :
    nomGo [TypePath.Id k] t = ([], t) := by
  cases t with
  | Record fs =>
    have h' : aggFreeFields fs = true := by simpa [flatBody] using h
    have hpos : recordInlinePos ([TypePath.Id k].getLast?) = true := by
      simp [recordInlinePos, List.getLast?_singleton]
    rw [nomGo.eq_def]
    simp only [hpos, Bool.true_or, if_true,
      nomGoRecordFields_aggFree _ fs h']
  | Variant fs =>
    have h' : aggFreeFields fs = true := by simpa [flatBody] using h
    have hpos : variantInlinePos ([TypePath.Id k].getLast?) = true := by
      simp [variantInlinePos, List.getLast?_singleton]
    rw [nomGo.eq_def]
    simp only [hpos, if_true,
      nomGoVariantFields_aggFree _ fs h']
  | Opt ty => simp [flatBody] at h
  | Vec ty => simp [flatBody] at h
  | Func f => simp [flatBody] at h
  | Service ms => simp [flatBody] at h
  | Class args ty => simp [flatBody] at h
  | Null => simp [flatBody] at h
  | Bool => simp [flatBody] at h
  | Nat => simp [flatBody] at h
  | Int => simp [flatBody] at h
  | Nat8 => simp [flatBody] at h
  | Nat16 => simp [flatBody] at h
  | Nat32 => simp [flatBody] at h
  | Nat64 => simp [flatBody] at h
  | Int8 => simp [flatBody] at h
  | Int16 => simp [flatBody] at h
  | Int32 => simp [flatBody] at h
  | Int64 => simp [flatBody] at h
  | Float32 => simp [flatBody] at h
  | Float64 => simp [flatBody] at h
  | Text => simp [flatBody] at h
  | Reserved => simp [flatBody] at h
  | Empty => simp [flatBody] at h
  | Var s => simp [flatBody] at h
  | Principal => simp [flatBody] at h
  | Knot i => simp [flatBody] at h
  | Unknown => simp [flatBody] at h

/-- Folding the per-declaration nominalization over flat declarations with
fresh, mutually distinct names just copies the declarations. -/
theorem fold_nominalize_flat (l : List (String × Ty)) :
    ∀ acc : TypeEnv, (∀ kv ∈ l, flatBody kv.2 = true) →
      (∀ kv ∈ l, ∀ kv2 ∈ acc.entries, kv2.1 ≠ kv.1) →
      (l.map Prod.fst).Nodup →
      l.foldl (fun res kv =>
          let r := nominalize res [TypePath.Id kv.1] kv.2
          r.1.insert kv.1 r.2) acc
        = ⟨acc.entries ++ l⟩ := by
  induction l with
  | nil => intro acc _ _ _; simp
  | cons hd tl ih =>
    intro acc hflat hfresh hnd
    rw [List.map_cons, List.nodup_cons] at hnd
    have hstep : nominalize acc [TypePath.Id hd.1] hd.2 = (acc, hd.2) := by
      simp [nominalize, nomGo_flatBody hd.1 hd.2 (hflat hd (by simp))]
    have hins : acc.insert hd.1 hd.2 = ⟨acc.entries ++ [hd]⟩ := by
      rw [TypeEnv.insert, if_neg]
      simp only [Bool.not_eq_true, List.any_eq_false]
      intro kv2 hkv2
      simpa using hfresh hd (by simp) kv2 hkv2
    rw [List.foldl_cons]
    simp only [hstep, hins]
    rw [ih ⟨acc.entries ++ [hd]⟩ (fun kv h => hflat kv (by simp [h]))
      ?_ hnd.2]
    · simp
    · intro kv hkv kv2 hkv2
      rcases List.mem_append.mp hkv2 with h2 | h2
      · exact hfresh kv (by simp [hkv]) kv2 h2
      · have he : kv2 = hd := by simpa using h2
        subst he
        intro hEq
        refine hnd.1 ?_
        rw [hEq]
        exact List.mem_map_of_mem Prod.fst hkv

/-- **C7**: an environment whose every declaration body is a `Record` or
`Variant` with no nested aggregate fields nominalizes to an identical
environment: no new names are introduced and every body is unchanged. -/
theorem nominalize_all_flat_identity (env : TypeEnv)
    (hflat : flatEnv env = true)
    (hnd : (env.entries.map Prod.fst).Nodup) :
    nominalize_all env none = (env, none) := by
  rw [nominalize_all]
  have := fold_nominalize_flat env.entries ⟨[]⟩
    (fun kv h => by
      have := List.all_eq_true.mp hflat kv h
      simpa using this)
    (by intro kv _ kv2 h2; simp at h2)
    hnd
  simp only [this, List.nil_append]

/-- **C7, witness**: the round-trip theorem applied to a concrete flat
two-declaration environment. -/
theorem nominalize_all_flat_identity_witness :
    flatEnv ⟨[("t", Ty.Record [Field.mk (Label.Named "x") Ty.Nat]),
              ("u", Ty.Variant [Field.mk (Label.Named "a") Ty.Null])]⟩ = true ∧
    nominalize_all
        ⟨[("t", Ty.Record [Field.mk (Label.Named "x") Ty.Nat]),
          ("u", Ty.Variant [Field.mk (Label.Named "a") Ty.Null])]⟩ none
      = (⟨[("t", Ty.Record [Field.mk (Label.Named "x") Ty.Nat]),
           ("u", Ty.Variant [Field.mk (Label.Named "a") Ty.Null])]⟩, none) :=
  ⟨by decide,
    nominalize_all_flat_identity _ (by decide) (by decide)⟩

/-! ### The nominalization invariant (claim C1) -/

theorem claimOk_of_nestedOk (t : Ty) (h : nestedOk t = true) :
    claimOk t = true := by
  cases t <;> simp_all [claimOk, nestedOk, Bool.and_eq_true]

theorem vpayOk_of_nestedOk (t : Ty) (h : nestedOk t = true) :
    vpayOk t = true := by
  cases t <;> simp_all [vpayOk, nestedOk, Bool.and_eq_true]

theorem ctxOk_of_nestedOk (path : List TypePath) (t : Ty)
    (h : nestedOk t = true) : ctxOk path t = true := by
  unfold ctxOk
  split_ifs with h1 h2
  · exact claimOk_of_nestedOk t h
  · exact vpayOk_of_nestedOk t h
  · exact h

theorem ctxOk_nil (t : Ty) : ctxOk [] t = claimOk t := by
  simp [ctxOk, variantInlinePos]

theorem ctxOk_single_id (s : String) (t : Ty) :
    ctxOk [TypePath.Id s] t = claimOk t := by
  simp [ctxOk, variantInlinePos, List.getLast?_singleton]

theorem ctxOk_concat_id (p : List TypePath) (s : String) (t : Ty) :
    ctxOk (p ++ [TypePath.Id s]) t = claimOk t := by
  simp [ctxOk, List.getLast?_concat, variantInlinePos]

theorem ctxOk_concat_vf (p : List TypePath) (l : String) (t : Ty) :
    ctxOk (p ++ [TypePath.VariantField l]) t = vpayOk t := by
  simp [ctxOk, List.getLast?_concat, variantInlinePos, recordInlinePos]

theorem ctxOk_concat_other (p : List TypePath) (seg : TypePath) (t : Ty)
    (h1 : recordInlinePos (some seg) = false) :
    ctxOk (p ++ [seg]) t = nestedOk t := by
  have h2 : variantInlinePos (some seg) = false := by
    cases seg <;> simp_all [variantInlinePos, recordInlinePos]
  simp [ctxOk, List.getLast?_concat, h1, h2]

theorem claimOk_func (f : Function) :
    claimOk (Ty.Func f) = nestedOk (Ty.Func f) := by
  simp [claimOk]

theorem ctxOk_service_nested (path : List TypePath) (ms : List (String × Ty))
    (h : ctxOk path (Ty.Service ms) = true) :
    nestedOk (Ty.Service ms) = true := by
  unfold ctxOk at h
  split_ifs at h with h1 h2
  · simpa [claimOk] using h
  · simpa [vpayOk] using h
  · exact h

/-- The field traversal of the inline `Record` arm never changes a label. -/
theorem nomGoRecordFields_labels (path : List TypePath) (fs : List Field) :
    (nomGoRecordFields path fs).2.map Field.id = fs.map Field.id := by
  cases fs with
  | nil => simp [nomGoRecordFields]
  | cons f rest =>
    cases f with
    | mk id ty =>
      simp only [nomGoRecordFields, List.map_cons]
      rw [nomGoRecordFields_labels path rest]
      simp [Field.id]
termination_by sizeOf fs

theorem enumFrom_all_ids (n : Nat) (fs gs : List Field)
    (h : fs.map Field.id = gs.map Field.id) :
    ((fs.enumFrom n).all (fun p => p.2.id.get_id == p.1 % 4294967296))
      = ((gs.enumFrom n).all (fun p => p.2.id.get_id == p.1 % 4294967296)) := by
  induction fs generalizing n gs with
  | nil =>
    cases gs with
    | nil => rfl
    | cons g gs' => simp at h
  | cons f fs' ih =>
    cases gs with
    | nil => simp at h
    | cons g gs' =>
      simp only [List.map_cons, List.cons.injEq] at h
      simp only [List.enumFrom_cons, List.all_cons]
      rw [h.1, ih (n + 1) gs' h.2]

/-- `is_tuple` depends only on the labels, not the field types. -/
theorem is_tuple_congr (fs gs : List Field)
    (h : fs.map Field.id = gs.map Field.id) :
    is_tuple fs = is_tuple gs := by
  have hemp : fs.isEmpty = gs.isEmpty := by
    cases fs <;> cases gs <;> simp_all
  unfold is_tuple
  rw [hemp]
  by_cases hg : gs.isEmpty = true
  · simp [hg]
  · have hg' : gs.isEmpty = false := by
      rwa [Bool.not_eq_true] at hg
    simp only [hg', Bool.false_eq_true, if_false]
    exact enumFrom_all_ids 0 fs gs h

mutual
/-- The central induction: on a structurally well-formed type, `nominalize`
produces a type satisfying the invariant of its path position, and every
declaration it inserts satisfies the full entry invariant. -/
theorem nomGo_claim (path : List TypePath) (t : Ty) (hs : swf t = true) :
    ctxOk path (nomGo path t).2 = true ∧
      ∀ kv ∈ (nomGo path t).1, claimOk kv.2 = true := by
  cases t with
  | Opt ty =>
    have hs' : swf ty = true := by simpa [swf] using hs
    obtain ⟨h1, h2⟩ := nomGo_claim (path ++ [TypePath.Opt]) ty hs'
    rw [ctxOk_concat_other _ _ _ (by simp [recordInlinePos])] at h1
    simp only [nomGo]
    exact ⟨ctxOk_of_nestedOk _ _ (by simp [nestedOk, h1]), h2⟩
  | Vec ty =>
    have hs' : swf ty = true := by simpa [swf] using hs
    obtain ⟨h1, h2⟩ := nomGo_claim (path ++ [TypePath.Opt]) ty hs'
    rw [ctxOk_concat_other _ _ _ (by simp [recordInlinePos])] at h1
    simp only [nomGo]
    exact ⟨ctxOk_of_nestedOk _ _ (by simp [nestedOk, h1]), h2⟩
  | Record fs =>
    have hs' : swfFields fs = true := by simpa [swf] using hs
    by_cases hcond : (recordInlinePos path.getLast? || is_tuple fs) = true
    · obtain ⟨h1, h2⟩ := nomGoRecordFields_claim path fs hs'
      have heq : nomGo path (Ty.Record fs)
          = ((nomGoRecordFields path fs).1,
             Ty.Record (nomGoRecordFields path fs).2) := by
        rw [nomGo.eq_def]
        simp only [hcond, if_true]
      rw [heq]
      refine ⟨?_, h2⟩
      unfold ctxOk
      split_ifs with hv hr
      · simpa [claimOk] using h1
      · simpa [vpayOk] using h1
      · have hrec : recordInlinePos path.getLast? = false := by
          rwa [Bool.not_eq_true] at hr
        have htup : is_tuple fs = true := by
          rcases Bool.or_eq_true_iff.mp hcond with h | h
          · rw [hrec] at h
            exact absurd h (by simp)
          · exact h
        have htup2 : is_tuple (nomGoRecordFields path fs).2 = true := by
          rw [is_tuple_congr _ fs (nomGoRecordFields_labels path fs)]
          exact htup
        simp [nestedOk, htup2, h1]
    · have hcf : (recordInlinePos path.getLast? || is_tuple fs) = false := by
        rwa [Bool.not_eq_true] at hcond
      have heq : nomGo path (Ty.Record fs)
          = ((nomGo [TypePath.Id (path_to_var path)] (Ty.Record fs)).1
              ++ [(path_to_var path,
                   (nomGo [TypePath.Id (path_to_var path)] (Ty.Record fs)).2)],
             Ty.Var (path_to_var path)) := by
        rw [nomGo.eq_def]
        simp only [hcf, Bool.false_eq_true, if_false]
      have heq2 : nomGo [TypePath.Id (path_to_var path)] (Ty.Record fs)
          = ((nomGoRecordFields [TypePath.Id (path_to_var path)] fs).1,
             Ty.Record (nomGoRecordFields [TypePath.Id (path_to_var path)] fs).2) := by
        rw [nomGo.eq_def]
        have : recordInlinePos ([TypePath.Id (path_to_var path)].getLast?) = true := by
          simp [recordInlinePos, List.getLast?_singleton]
        simp only [this, Bool.true_or, if_true]
      obtain ⟨h1, h2⟩ :=
        nomGoRecordFields_claim [TypePath.Id (path_to_var path)] fs hs'
      rw [heq, heq2]
      refine ⟨ctxOk_of_nestedOk _ _ (by simp [nestedOk]), ?_⟩
      intro kv hkv
      rcases List.mem_append.mp hkv with h | h
      · exact h2 kv h
      · have hkv2 : kv = (path_to_var path,
            Ty.Record (nomGoRecordFields [TypePath.Id (path_to_var path)] fs).2) := by
          simpa using h
        rw [hkv2]
        simpa [claimOk] using h1
  | Variant fs =>
    have hs' : swfFields fs = true := by simpa [swf] using hs
    by_cases hcond : variantInlinePos path.getLast? = true
    · obtain ⟨h1, h2⟩ := nomGoVariantFields_claim path fs hs'
      have heq : nomGo path (Ty.Variant fs)
          = ((nomGoVariantFields path fs).1,
             Ty.Variant (nomGoVariantFields path fs).2) := by
        rw [nomGo.eq_def]
        simp only [hcond, if_true]
      rw [heq]
      refine ⟨?_, h2⟩
      unfold ctxOk
      rw [if_pos hcond]
      simpa [claimOk] using h1
    · have hcf : variantInlinePos path.getLast? = false := by
        rwa [Bool.not_eq_true] at hcond
      have heq : nomGo path (Ty.Variant fs)
          = ((nomGo [TypePath.Id (path_to_var path)] (Ty.Variant fs)).1
              ++ [(path_to_var path,
                   (nomGo [TypePath.Id (path_to_var path)] (Ty.Variant fs)).2)],
             Ty.Var (path_to_var path)) := by
        rw [nomGo.eq_def]
        simp only [hcf, Bool.false_eq_true, if_false]
      have heq2 : nomGo [TypePath.Id (path_to_var path)] (Ty.Variant fs)
          = ((nomGoVariantFields [TypePath.Id (path_to_var path)] fs).1,
             Ty.Variant (nomGoVariantFields [TypePath.Id (path_to_var path)] fs).2) := by
        rw [nomGo.eq_def]
        have : variantInlinePos ([TypePath.Id (path_to_var path)].getLast?) = true := by
          simp [variantInlinePos, List.getLast?_singleton]
        simp only [this, if_true]
      obtain ⟨h1, h2⟩ :=
        nomGoVariantFields_claim [TypePath.Id (path_to_var path)] fs hs'
      rw [heq, heq2]
      refine ⟨ctxOk_of_nestedOk _ _ (by simp [nestedOk]), ?_⟩
      intro kv hkv
      rcases List.mem_append.mp hkv with h | h
      · exact h2 kv h
      · have hkv2 : kv = (path_to_var path,
            Ty.Variant (nomGoVariantFields [TypePath.Id (path_to_var path)] fs).2) := by
          simpa using h
        rw [hkv2]
        simpa [claimOk] using h1
  | Func f =>
    cases f with
    | mk m a r =>
      have hs' : swfList a = true ∧ swfList r = true := by
        simpa [swf, Bool.and_eq_true] using hs
      obtain ⟨ha1, ha2⟩ := nomGoNumList_claim path ("arg") 0 a hs'.1
      obtain ⟨hr1, hr2⟩ := nomGoNumList_claim path ("ret") 0 r hs'.2
      simp only [nomGo]
      refine ⟨ctxOk_of_nestedOk _ _ (by simp [nestedOk, ha1, hr1]), ?_⟩
      intro kv hkv
      rcases List.mem_append.mp hkv with h | h
      · exact ha2 kv h
      · exact hr2 kv h
  | Service ms =>
    have hs' : swfMeths ms = true := by simpa [swf] using hs
    obtain ⟨h1, h2⟩ := nomGoMeths_claim path ms hs'
    simp only [nomGo]
    exact ⟨ctxOk_of_nestedOk _ _ (by simp [nestedOk, h1]), h2⟩
  | Class args ty =>
    have hs' : swfList args = true ∧ swf ty = true ∧ classBodyShape ty = true := by
      simpa [swf, Bool.and_eq_true, and_assoc] using hs
    obtain ⟨ha1, ha2⟩ := nomGoClassArgs_claim path args hs'.1
    obtain ⟨hb1, hb2⟩ := nomGo_claim path ty hs'.2.1
    have hbody : nestedOk (nomGo path ty).2 = true := by
      have hshape := hs'.2.2
      cases ty <;> simp [classBodyShape] at hshape
      case Var s =>
        simp only [nomGo]
        simp [nestedOk]
      case Service ms =>
        simp only [nomGo] at hb1 ⊢
        exact ctxOk_service_nested path _ hb1
    simp only [nomGo]
    refine ⟨ctxOk_of_nestedOk _ _ (by simp [nestedOk, ha1, hbody]), ?_⟩
    intro kv hkv
    rcases List.mem_append.mp hkv with h | h
    · exact ha2 kv h
    · exact hb2 kv h
  | Null =>
    simp only [nomGo]
    exact ⟨ctxOk_of_nestedOk _ _ (by simp [nestedOk]), by simp⟩
  | Bool =>
    simp only [nomGo]
    exact ⟨ctxOk_of_nestedOk _ _ (by simp [nestedOk]), by simp⟩
  | Nat =>
    simp only [nomGo]
    exact ⟨ctxOk_of_nestedOk _ _ (by simp [nestedOk]), by simp⟩
  | Int =>
    simp only [nomGo]
    exact ⟨ctxOk_of_nestedOk _ _ (by simp [nestedOk]), by simp⟩
  | Nat8 =>
    simp only [nomGo]
    exact ⟨ctxOk_of_nestedOk _ _ (by simp [nestedOk]), by simp⟩
  | Nat16 =>
    simp only [nomGo]
    exact ⟨ctxOk_of_nestedOk _ _ (by simp [nestedOk]), by simp⟩
  | Nat32 =>
    simp only [nomGo]
    exact ⟨ctxOk_of_nestedOk _ _ (by simp [nestedOk]), by simp⟩
  | Nat64 =>
    simp only [nomGo]
    exact ⟨ctxOk_of_nestedOk _ _ (by simp [nestedOk]), by simp⟩
  | Int8 =>
    simp only [nomGo]
    exact ⟨ctxOk_of_nestedOk _ _ (by simp [nestedOk]), by simp⟩
  | Int16 =>
    simp only [nomGo]
    exact ⟨ctxOk_of_nestedOk _ _ (by simp [nestedOk]), by simp⟩
  | Int32 =>
    simp only [nomGo]
    exact ⟨ctxOk_of_nestedOk _ _ (by simp [nestedOk]), by simp⟩
  | Int64 =>
    simp only [nomGo]
    exact ⟨ctxOk_of_nestedOk _ _ (by simp [nestedOk]), by simp⟩
  | Float32 =>
    simp only [nomGo]
    exact ⟨ctxOk_of_nestedOk _ _ (by simp [nestedOk]), by simp⟩
  | Float64 =>
    simp only [nomGo]
    exact ⟨ctxOk_of_nestedOk _ _ (by simp [nestedOk]), by simp⟩
  | Text =>
    simp only [nomGo]
    exact ⟨ctxOk_of_nestedOk _ _ (by simp [nestedOk]), by simp⟩
  | Reserved =>
    simp only [nomGo]
    exact ⟨ctxOk_of_nestedOk _ _ (by simp [nestedOk]), by simp⟩
  | Empty =>
    simp only [nomGo]
    exact ⟨ctxOk_of_nestedOk _ _ (by simp [nestedOk]), by simp⟩
  | Var s =>
    simp only [nomGo]
    exact ⟨ctxOk_of_nestedOk _ _ (by simp [nestedOk]), by simp⟩
  | Principal =>
    simp only [nomGo]
    exact ⟨ctxOk_of_nestedOk _ _ (by simp [nestedOk]), by simp⟩
  | Knot i =>
    simp only [nomGo]
    exact ⟨ctxOk_of_nestedOk _ _ (by simp [nestedOk]), by simp⟩
  | Unknown =>
    simp only [nomGo]
    exact ⟨ctxOk_of_nestedOk _ _ (by simp [nestedOk]), by simp⟩
termination_by sizeOf t

theorem nomGoRecordFields_claim (path : List TypePath) (fs : List Field)
    (hs : swfFields fs = true) :
    nestedOkFields (nomGoRecordFields path fs).2 = true ∧
      ∀ kv ∈ (nomGoRecordFields path fs).1, claimOk kv.2 = true := by
  cases fs with
  | nil => simp [nomGoRecordFields, nestedOkFields]
  | cons f rest =>
    cases f with
    | mk id ty =>
      have hs1 : swf ty = true ∧ swfFields rest = true := by
        simpa [swfFields, Bool.and_eq_true] using hs
      obtain ⟨h1, h2⟩ :=
        nomGo_claim (path ++ [TypePath.RecordField id.display]) ty hs1.1
      obtain ⟨h3, h4⟩ := nomGoRecordFields_claim path rest hs1.2
      rw [ctxOk_concat_other _ _ _ (by simp [recordInlinePos])] at h1
      simp only [nomGoRecordFields]
      refine ⟨by simp [nestedOkFields, h1, h3], ?_⟩
      intro kv hkv
      rcases List.mem_append.mp hkv with h | h
      · exact h2 kv h
      · exact h4 kv h
termination_by sizeOf fs

theorem nomGoVariantFields_claim (path : List TypePath) (fs : List Field)
    (hs : swfFields fs = true) :
    ((nomGoVariantFields path fs).2.all (fun f => vpayOk f.ty)) = true ∧
      ∀ kv ∈ (nomGoVariantFields path fs).1, claimOk kv.2 = true := by
  cases fs with
  | nil => simp [nomGoVariantFields]
  | cons f rest =>
    cases f with
    | mk id ty =>
      have hs1 : swf ty = true ∧ swfFields rest = true := by
        simpa [swfFields, Bool.and_eq_true] using hs
      obtain ⟨h1, h2⟩ :=
        nomGo_claim (path ++ [TypePath.VariantField id.display]) ty hs1.1
      obtain ⟨h3, h4⟩ := nomGoVariantFields_claim path rest hs1.2
      rw [ctxOk_concat_vf] at h1
      simp only [nomGoVariantFields]
      constructor
      · rw [List.all_cons, Bool.and_eq_true]
        exact ⟨h1, h3⟩
      · intro kv hkv
        rcases List.mem_append.mp hkv with h | h
        · exact h2 kv h
        · exact h4 kv h
termination_by sizeOf fs

theorem nomGoNumList_claim (path : List TypePath) (pre : String) (i : Nat)
    (ts : List Ty) (hs : swfList ts = true) :
    nestedOkList (nomGoNumList path pre i ts).2 = true ∧
      ∀ kv ∈ (nomGoNumList path pre i ts).1, claimOk kv.2 = true := by
  cases ts with
  | nil => simp [nomGoNumList, nestedOkList]
  | cons ty rest =>
    have hs1 : swf ty = true ∧ swfList rest = true := by
      simpa [swfList, Bool.and_eq_true] using hs
    obtain ⟨h1, h2⟩ :=
      nomGo_claim (path ++ [TypePath.Func (pre ++ toString i)]) ty hs1.1
    obtain ⟨h3, h4⟩ := nomGoNumList_claim path pre (i + 1) rest hs1.2
    rw [ctxOk_concat_other _ _ _ (by simp [recordInlinePos])] at h1
    simp only [nomGoNumList]
    refine ⟨by simp [nestedOkList, h1, h3], ?_⟩
    intro kv hkv
    rcases List.mem_append.mp hkv with h | h
    · exact h2 kv h
    · exact h4 kv h
termination_by sizeOf ts

theorem nomGoMeths_claim (path : List TypePath) (ms : List (String × Ty))
    (hs : swfMeths ms = true) :
    nestedOkMeths (nomGoMeths path ms).2 = true ∧
      ∀ kv ∈ (nomGoMeths path ms).1, claimOk kv.2 = true := by
  cases ms with
  | nil => simp [nomGoMeths, nestedOkMeths]
  | cons kv0 rest =>
    cases kv0 with
    | mk meth ty =>
      have hs1 : methShape ty = true ∧ swf ty = true ∧ swfMeths rest = true := by
        simpa [swfMeths, Bool.and_eq_true, and_assoc] using hs
      obtain ⟨h1, h2⟩ := nomGo_claim (path ++ [TypePath.Id meth]) ty hs1.2.1
      obtain ⟨h3, h4⟩ := nomGoMeths_claim path rest hs1.2.2
      rw [ctxOk_concat_id] at h1
      have hns : nestedOk (nomGo (path ++ [TypePath.Id meth]) ty).2 = true := by
        have hshape := hs1.1
        cases ty <;> simp [methShape] at hshape
        case Var s =>
          simp only [nomGo]
          simp [nestedOk]
        case Func f =>
          cases f with
          | mk m a r =>
            simp only [nomGo] at h1 ⊢
            simpa [claimOk] using h1
      simp only [nomGoMeths]
      refine ⟨by simp [nestedOkMeths, hns, h3], ?_⟩
      intro kv hkv
      rcases List.mem_append.mp hkv with h | h
      · exact h2 kv h
      · exact h4 kv h
termination_by sizeOf ms

theorem nomGoClassArgs_claim (path : List TypePath) (ts : List Ty)
    (hs : swfList ts = true) :
    nestedOkList (nomGoClassArgs path ts).2 = true ∧
      ∀ kv ∈ (nomGoClassArgs path ts).1, claimOk kv.2 = true := by
  cases ts with
  | nil => simp [nomGoClassArgs, nestedOkList]
  | cons ty rest =>
    have hs1 : swf ty = true ∧ swfList rest = true := by
      simpa [swfList, Bool.and_eq_true] using hs
    obtain ⟨h1, h2⟩ := nomGo_claim (path ++ [TypePath.Init]) ty hs1.1
    obtain ⟨h3, h4⟩ := nomGoClassArgs_claim path rest hs1.2
    rw [ctxOk_concat_other _ _ _ (by simp [recordInlinePos])] at h1
    simp only [nomGoClassArgs]
    refine ⟨by simp [nestedOkList, h1, h3], ?_⟩
    intro kv hkv
    rcases List.mem_append.mp hkv with h | h
    · exact h2 kv h
    · exact h4 kv h
termination_by sizeOf ts
end

/-- `TypeEnv.insert` preserves a pointwise value predicate. -/
theorem env_all_insert (p : Ty → Bool) (env : TypeEnv) (k : String) (v : Ty)
    (h : env.entries.all (fun kv => p kv.2) = true) (hv : p v = true) :
    ((env.insert k v).entries.all (fun kv => p kv.2)) = true := by
  unfold TypeEnv.insert
  split_ifs with hc
  · simp only [List.all_eq_true] at h ⊢
    intro kv hkv
    simp only [List.mem_map] at hkv
    obtain ⟨kv0, hkv0, heq⟩ := hkv
    by_cases he : kv0.1 == k
    · rw [if_pos he] at heq
      rw [← heq]
      exact hv
    · rw [if_neg he] at heq
      rw [← heq]
      exact h kv0 hkv0
  · simp only [List.all_append, List.all_cons, List.all_nil,
      Bool.and_eq_true]
    exact ⟨h, hv, trivial⟩

/-- Folding `TypeEnv.insert` over values satisfying a predicate preserves
the predicate over the whole environment. -/
theorem env_all_foldl_insert (p : Ty → Bool) (l : List (String × Ty)) :
    ∀ env : TypeEnv, env.entries.all (fun kv => p kv.2) = true →
      (∀ kv ∈ l, p kv.2 = true) →
      (((l.foldl (fun e kv => e.insert kv.1 kv.2) env).entries.all
        (fun kv => p kv.2))) = true := by
  induction l with
  | nil =>
    intro env h _
    simpa using h
  | cons kv rest ih =>
    intro env h hl
    rw [List.foldl_cons]
    exact ih _ (env_all_insert p env kv.1 kv.2 h (hl kv (by simp)))
      (fun kv2 h2 => hl kv2 (by simp [h2]))

/-- The per-declaration loop of `nominalize_all` preserves the entry
invariant. -/
theorem fold_nominalize_claim (l : List (String × Ty)) :
    ∀ acc : TypeEnv, (∀ kv ∈ l, swf kv.2 = true) →
      acc.entries.all (fun kv => claimOk kv.2) = true →
      (((l.foldl (fun res kv =>
          let r := nominalize res [TypePath.Id kv.1] kv.2
          r.1.insert kv.1 r.2) acc).entries.all
        (fun kv => claimOk kv.2))) = true := by
  induction l with
  | nil =>
    intro acc _ h
    simpa using h
  | cons kv rest ih =>
    intro acc hswf h
    rw [List.foldl_cons]
    obtain ⟨h1, h2⟩ := nomGo_claim [TypePath.Id kv.1] kv.2 (hswf kv (by simp))
    rw [ctxOk_single_id] at h1
    refine ih _ (fun kv2 h2' => hswf kv2 (by simp [h2'])) ?_
    simp only [nominalize]
    exact env_all_insert _ _ _ _
      (env_all_foldl_insert _ _ acc h h2) h1

/-- **C1**: after `nominalize_all` on a well-formed environment and optional
entry point, every declaration value of the output environment satisfies the
entry invariant `claimOk` and the rewritten entry point does too — i.e.
every `Record`/`Variant` reachable from the output is either the direct
value of an environment entry, a tuple-shaped `Record` inline, or a `Record`
payload of a variant field; no other nesting survives. -/
theorem nominalize_all_invariant (env : TypeEnv) (actor : Option Ty)
    (hE : envSwf env = true) (hA : actorSwf actor = true) :
    envClaimOk (nominalize_all env actor).1 = true ∧
      actorClaimOk (nominalize_all env actor).2 = true := by
  rw [nominalize_all.eq_def]
  have hfold := fold_nominalize_claim env.entries ⟨[]⟩
    (fun kv h => List.all_eq_true.mp hE kv h) (by simp)
  cases actor with
  | none => simpa [envClaimOk, actorClaimOk] using hfold
  | some a =>
    have hA' : swf a = true := by simpa [actorSwf] using hA
    obtain ⟨h1, h2⟩ := nomGo_claim [] a hA'
    rw [ctxOk_nil] at h1
    simp only [nominalize]
    constructor
    · exact env_all_foldl_insert _ _ _ hfold h2
    · simpa [actorClaimOk] using h1

/-- **C1, witness**: the invariant theorem applied to a concrete environment
with a nested record (which gets hoisted). -/
theorem nominalize_all_invariant_witness :
    envSwf ⟨[("a", Ty.Record [Field.mk (Label.Named "b")
        (Ty.Record [Field.mk (Label.Named "x") Ty.Nat])])]⟩ = true ∧
      envClaimOk (nominalize_all
        ⟨[("a", Ty.Record [Field.mk (Label.Named "b")
            (Ty.Record [Field.mk (Label.Named "x") Ty.Nat])])]⟩ none).1 = true ∧
      actorClaimOk (nominalize_all
        ⟨[("a", Ty.Record [Field.mk (Label.Named "b")
            (Ty.Record [Field.mk (Label.Named "x") Ty.Nat])])]⟩ none).2 = true :=
  ⟨by decide,
    (nominalize_all_invariant _ none (by decide) (by decide)).1,
    (nominalize_all_invariant _ none (by decide) (by decide)).2⟩

/-! ### Renderability of the nominalized output (claim C5) -/

theorem ctxPpOk_nil (t : Ty) : ctxPpOk [] t = topOk t := by
  simp [ctxPpOk, variantInlinePos]

theorem ctxPpOk_single_id (s : String) (t : Ty) :
    ctxPpOk [TypePath.Id s] t = topOk t := by
  simp [ctxPpOk, variantInlinePos, List.getLast?_singleton]

theorem ctxPpOk_concat_id (p : List TypePath) (s : String) (t : Ty) :
    ctxPpOk (p ++ [TypePath.Id s]) t = topOk t := by
  simp [ctxPpOk, List.getLast?_concat, variantInlinePos]

theorem ctxPpOk_concat_vf (p : List TypePath) (l : String) (t : Ty) :
    ctxPpOk (p ++ [TypePath.VariantField l]) t = payOk t := by
  simp [ctxPpOk, List.getLast?_concat, variantInlinePos, recordInlinePos]

theorem ctxPpOk_concat_other (p : List TypePath) (seg : TypePath) (t : Ty)
    (h1 : recordInlinePos (some seg) = false) :
    ctxPpOk (p ++ [seg]) t = ppOk t := by
  have h2 : variantInlinePos (some seg) = false := by
    cases seg <;> simp_all [variantInlinePos, recordInlinePos]
  simp [ctxPpOk, List.getLast?_concat, h1, h2]

/-- On types where the three render predicates coincide (everything except
an inline `Record`/`Variant`), `ppOk` alone gives `ctxPpOk` at any path. -/
theorem ctxPpOk_of_eq (path : List TypePath) (t : Ty)
    (hT : topOk t = true) (hP : payOk t = true) (hp : ppOk t = true) :
    ctxPpOk path t = true := by
  unfold ctxPpOk
  split_ifs <;> assumption

mutual
/-- The render-side induction: on a type without `Class`/`Knot`/`Unknown`,
`nominalize` produces a type that the emitter can render at its position,
and every declaration it inserts is renderable as a top-level entry. -/
theorem nomGo_top (path : List TypePath) (t : Ty) (hb : noBad t = true) :
    ctxPpOk path (nomGo path t).2 = true ∧
      ∀ kv ∈ (nomGo path t).1, topOk kv.2 = true := by
  cases t with
  | Opt ty =>
    have hb' : noBad ty = true := by simpa [noBad] using hb
    obtain ⟨h1, h2⟩ := nomGo_top (path ++ [TypePath.Opt]) ty hb'
    rw [ctxPpOk_concat_other _ _ _ (by simp [recordInlinePos])] at h1
    simp only [nomGo]
    exact ⟨ctxPpOk_of_eq _ _ (by simp [topOk, h1]) (by simp [payOk, ppOk, h1])
      (by simp [ppOk, h1]), h2⟩
  | Vec ty =>
    have hb' : noBad ty = true := by simpa [noBad] using hb
    obtain ⟨h1, h2⟩ := nomGo_top (path ++ [TypePath.Opt]) ty hb'
    rw [ctxPpOk_concat_other _ _ _ (by simp [recordInlinePos])] at h1
    simp only [nomGo]
    exact ⟨ctxPpOk_of_eq _ _ (by simp [topOk, h1]) (by simp [payOk, ppOk, h1])
      (by simp [ppOk, h1]), h2⟩
  | Record fs =>
    have hb' : noBadFields fs = true := by simpa [noBad] using hb
    by_cases hcond : (recordInlinePos path.getLast? || is_tuple fs) = true
    · obtain ⟨h1, h2⟩ := nomGoRecordFields_top path fs hb'
      have heq : nomGo path (Ty.Record fs)
          = ((nomGoRecordFields path fs).1,
             Ty.Record (nomGoRecordFields path fs).2) := by
        rw [nomGo.eq_def]
        simp only [hcond, if_true]
      rw [heq]
      exact ⟨ctxPpOk_of_eq _ _ (by simp [topOk, h1]) (by simp [payOk, h1])
        (by simp [ppOk, h1]), h2⟩
    · have hcf : (recordInlinePos path.getLast? || is_tuple fs) = false := by
        rwa [Bool.not_eq_true] at hcond
      have heq : nomGo path (Ty.Record fs)
          = ((nomGo [TypePath.Id (path_to_var path)] (Ty.Record fs)).1
              ++ [(path_to_var path,
                   (nomGo [TypePath.Id (path_to_var path)] (Ty.Record fs)).2)],
             Ty.Var (path_to_var path)) := by
        rw [nomGo.eq_def]
        simp only [hcf, Bool.false_eq_true, if_false]
      have heq2 : nomGo [TypePath.Id (path_to_var path)] (Ty.Record fs)
          = ((nomGoRecordFields [TypePath.Id (path_to_var path)] fs).1,
             Ty.Record (nomGoRecordFields [TypePath.Id (path_to_var path)] fs).2) := by
        rw [nomGo.eq_def]
        have : recordInlinePos ([TypePath.Id (path_to_var path)].getLast?) = true := by
          simp [recordInlinePos, List.getLast?_singleton]
        simp only [this, Bool.true_or, if_true]
      obtain ⟨h1, h2⟩ :=
        nomGoRecordFields_top [TypePath.Id (path_to_var path)] fs hb'
      rw [heq, heq2]
      refine ⟨ctxPpOk_of_eq _ _ (by simp [topOk, ppOk]) (by simp [payOk, ppOk])
        (by simp [ppOk]), ?_⟩
      intro kv hkv
      rcases List.mem_append.mp hkv with h | h
      · exact h2 kv h
      · have hkv2 : kv = (path_to_var path,
            Ty.Record (nomGoRecordFields [TypePath.Id (path_to_var path)] fs).2) := by
          simpa using h
        rw [hkv2]
        simpa [topOk] using h1
  | Variant fs =>
    have hb' : noBadFields fs = true := by simpa [noBad] using hb
    by_cases hcond : variantInlinePos path.getLast? = true
    · obtain ⟨h1, h2⟩ := nomGoVariantFields_top path fs hb'
      have heq : nomGo path (Ty.Variant fs)
          = ((nomGoVariantFields path fs).1,
             Ty.Variant (nomGoVariantFields path fs).2) := by
        rw [nomGo.eq_def]
        simp only [hcond, if_true]
      rw [heq]
      refine ⟨?_, h2⟩
      unfold ctxPpOk
      rw [if_pos hcond]
      simpa [topOk] using h1
    · have hcf : variantInlinePos path.getLast? = false := by
        rwa [Bool.not_eq_true] at hcond
      have heq : nomGo path (Ty.Variant fs)
          = ((nomGo [TypePath.Id (path_to_var path)] (Ty.Variant fs)).1
              ++ [(path_to_var path,
                   (nomGo [TypePath.Id (path_to_var path)] (Ty.Variant fs)).2)],
             Ty.Var (path_to_var path)) := by
        rw [nomGo.eq_def]
        simp only [hcf, Bool.false_eq_true, if_false]
      have heq2 : nomGo [TypePath.Id (path_to_var path)] (Ty.Variant fs)
          = ((nomGoVariantFields [TypePath.Id (path_to_var path)] fs).1,
             Ty.Variant (nomGoVariantFields [TypePath.Id (path_to_var path)] fs).2) := by
        rw [nomGo.eq_def]
        have : variantInlinePos ([TypePath.Id (path_to_var path)].getLast?) = true := by
          simp [variantInlinePos, List.getLast?_singleton]
        simp only [this, if_true]
      obtain ⟨h1, h2⟩ :=
        nomGoVariantFields_top [TypePath.Id (path_to_var path)] fs hb'
      rw [heq, heq2]
      refine ⟨ctxPpOk_of_eq _ _ (by simp [topOk, ppOk]) (by simp [payOk, ppOk])
        (by simp [ppOk]), ?_⟩
      intro kv hkv
      rcases List.mem_append.mp hkv with h | h
      · exact h2 kv h
      · have hkv2 : kv = (path_to_var path,
            Ty.Variant (nomGoVariantFields [TypePath.Id (path_to_var path)] fs).2) := by
          simpa using h
        rw [hkv2]
        simpa [topOk] using h1
  | Func f =>
    cases f with
    | mk m a r =>
      have hb' : noBadList a = true ∧ noBadList r = true := by
        simpa [noBad, Bool.and_eq_true] using hb
      obtain ⟨ha1, ha2⟩ := nomGoNumList_top path ("arg") 0 a hb'.1
      obtain ⟨hr1, hr2⟩ := nomGoNumList_top path ("ret") 0 r hb'.2
      simp only [nomGo]
      refine ⟨ctxPpOk_of_eq _ _ (by simp [topOk, ha1, hr1])
        (by simp [payOk, ppOk]) (by simp [ppOk]), ?_⟩
      intro kv hkv
      rcases List.mem_append.mp hkv with h | h
      · exact ha2 kv h
      · exact hr2 kv h
  | Service ms =>
    have hb' : noBadMeths ms = true := by simpa [noBad] using hb
    obtain ⟨h1, h2⟩ := nomGoMeths_top path ms hb'
    simp only [nomGo]
    exact ⟨ctxPpOk_of_eq _ _ (by simp [topOk, h1]) (by simp [payOk, ppOk])
      (by simp [ppOk]), h2⟩
  | Class args ty => simp [noBad] at hb
  | Knot i => simp [noBad] at hb
  | Unknown => simp [noBad] at hb
  | Null =>
    simp only [nomGo]
    exact ⟨ctxPpOk_of_eq _ _ (by simp [topOk, ppOk]) (by simp [payOk, ppOk])
      (by simp [ppOk]), by simp⟩
  | Bool =>
    simp only [nomGo]
    exact ⟨ctxPpOk_of_eq _ _ (by simp [topOk, ppOk]) (by simp [payOk, ppOk])
      (by simp [ppOk]), by simp⟩
  | Nat =>
    simp only [nomGo]
    exact ⟨ctxPpOk_of_eq _ _ (by simp [topOk, ppOk]) (by simp [payOk, ppOk])
      (by simp [ppOk]), by simp⟩
  | Int =>
    simp only [nomGo]
    exact ⟨ctxPpOk_of_eq _ _ (by simp [topOk, ppOk]) (by simp [payOk, ppOk])
      (by simp [ppOk]), by simp⟩
  | Nat8 =>
    simp only [nomGo]
    exact ⟨ctxPpOk_of_eq _ _ (by simp [topOk, ppOk]) (by simp [payOk, ppOk])
      (by simp [ppOk]), by simp⟩
  | Nat16 =>
    simp only [nomGo]
    exact ⟨ctxPpOk_of_eq _ _ (by simp [topOk, ppOk]) (by simp [payOk, ppOk])
      (by simp [ppOk]), by simp⟩
  | Nat32 =>
    simp only [nomGo]
    exact ⟨ctxPpOk_of_eq _ _ (by simp [topOk, ppOk]) (by simp [payOk, ppOk])
      (by simp [ppOk]), by simp⟩
  | Nat64 =>
    simp only [nomGo]
    exact ⟨ctxPpOk_of_eq _ _ (by simp [topOk, ppOk]) (by simp [payOk, ppOk])
      (by simp [ppOk]), by simp⟩
  | Int8 =>
    simp only [nomGo]
    exact ⟨ctxPpOk_of_eq _ _ (by simp [topOk, ppOk]) (by simp [payOk, ppOk])
      (by simp [ppOk]), by simp⟩
  | Int16 =>
    simp only [nomGo]
    exact ⟨ctxPpOk_of_eq _ _ (by simp [topOk, ppOk]) (by simp [payOk, ppOk])
      (by simp [ppOk]), by simp⟩
  | Int32 =>
    simp only [nomGo]
    exact ⟨ctxPpOk_of_eq _ _ (by simp [topOk, ppOk]) (by simp [payOk, ppOk])
      (by simp [ppOk]), by simp⟩
  | Int64 =>
    simp only [nomGo]
    exact ⟨ctxPpOk_of_eq _ _ (by simp [topOk, ppOk]) (by simp [payOk, ppOk])
      (by simp [ppOk]), by simp⟩
  | Float32 =>
    simp only [nomGo]
    exact ⟨ctxPpOk_of_eq _ _ (by simp [topOk, ppOk]) (by simp [payOk, ppOk])
      (by simp [ppOk]), by simp⟩
  | Float64 =>
    simp only [nomGo]
    exact ⟨ctxPpOk_of_eq _ _ (by simp [topOk, ppOk]) (by simp [payOk, ppOk])
      (by simp [ppOk]), by simp⟩
  | Text =>
    simp only [nomGo]
    exact ⟨ctxPpOk_of_eq _ _ (by simp [topOk, ppOk]) (by simp [payOk, ppOk])
      (by simp [ppOk]), by simp⟩
  | Reserved =>
    simp only [nomGo]
    exact ⟨ctxPpOk_of_eq _ _ (by simp [topOk, ppOk]) (by simp [payOk, ppOk])
      (by simp [ppOk]), by simp⟩
  | Empty =>
    simp only [nomGo]
    exact ⟨ctxPpOk_of_eq _ _ (by simp [topOk, ppOk]) (by simp [payOk, ppOk])
      (by simp [ppOk]), by simp⟩
  | Var s =>
    simp only [nomGo]
    exact ⟨ctxPpOk_of_eq _ _ (by simp [topOk, ppOk]) (by simp [payOk, ppOk])
      (by simp [ppOk]), by simp⟩
  | Principal =>
    simp only [nomGo]
    exact ⟨ctxPpOk_of_eq _ _ (by simp [topOk, ppOk]) (by simp [payOk, ppOk])
      (by simp [ppOk]), by simp⟩
termination_by sizeOf t

theorem nomGoRecordFields_top (path : List TypePath) (fs : List Field)
    (hb : noBadFields fs = true) :
    ppOkFields (nomGoRecordFields path fs).2 = true ∧
      ∀ kv ∈ (nomGoRecordFields path fs).1, topOk kv.2 = true := by
  cases fs with
  | nil => simp [nomGoRecordFields, ppOkFields]
  | cons f rest =>
    cases f with
    | mk id ty =>
      have hb1 : noBad ty = true ∧ noBadFields rest = true := by
        simpa [noBadFields, Bool.and_eq_true] using hb
      obtain ⟨h1, h2⟩ :=
        nomGo_top (path ++ [TypePath.RecordField id.display]) ty hb1.1
      obtain ⟨h3, h4⟩ := nomGoRecordFields_top path rest hb1.2
      rw [ctxPpOk_concat_other _ _ _ (by simp [recordInlinePos])] at h1
      simp only [nomGoRecordFields]
      refine ⟨by simp [ppOkFields, h1, h3], ?_⟩
      intro kv hkv
      rcases List.mem_append.mp hkv with h | h
      · exact h2 kv h
      · exact h4 kv h
termination_by sizeOf fs

theorem nomGoVariantFields_top (path : List TypePath) (fs : List Field)
    (hb : noBadFields fs = true) :
    topVariantFields (nomGoVariantFields path fs).2 = true ∧
      ∀ kv ∈ (nomGoVariantFields path fs).1, topOk kv.2 = true := by
  cases fs with
  | nil => simp [nomGoVariantFields, topVariantFields]
  | cons f rest =>
    cases f with
    | mk id ty =>
      have hb1 : noBad ty = true ∧ noBadFields rest = true := by
        simpa [noBadFields, Bool.and_eq_true] using hb
      obtain ⟨h1, h2⟩ :=
        nomGo_top (path ++ [TypePath.VariantField id.display]) ty hb1.1
      obtain ⟨h3, h4⟩ := nomGoVariantFields_top path rest hb1.2
      rw [ctxPpOk_concat_vf] at h1
      simp only [nomGoVariantFields]
      refine ⟨by simp [topVariantFields, h1, h3], ?_⟩
      intro kv hkv
      rcases List.mem_append.mp hkv with h | h
      · exact h2 kv h
      · exact h4 kv h
termination_by sizeOf fs

theorem nomGoNumList_top (path : List TypePath) (pre : String) (i : Nat)
    (ts : List Ty) (hb : noBadList ts = true) :
    ((nomGoNumList path pre i ts).2.all ppOk) = true ∧
      ∀ kv ∈ (nomGoNumList path pre i ts).1, topOk kv.2 = true := by
  cases ts with
  | nil => simp [nomGoNumList]
  | cons ty rest =>
    have hb1 : noBad ty = true ∧ noBadList rest = true := by
      simpa [noBadList, Bool.and_eq_true] using hb
    obtain ⟨h1, h2⟩ :=
      nomGo_top (path ++ [TypePath.Func (pre ++ toString i)]) ty hb1.1
    obtain ⟨h3, h4⟩ := nomGoNumList_top path pre (i + 1) rest hb1.2
    rw [ctxPpOk_concat_other _ _ _ (by simp [recordInlinePos])] at h1
    simp only [nomGoNumList]
    refine ⟨by simp [List.all_cons, h1, h3], ?_⟩
    intro kv hkv
    rcases List.mem_append.mp hkv with h | h
    · exact h2 kv h
    · exact h4 kv h
termination_by sizeOf ts

theorem nomGoMeths_top (path : List TypePath) (ms : List (String × Ty))
    (hb : noBadMeths ms = true) :
    topOkMeths (nomGoMeths path ms).2 = true ∧
      ∀ kv ∈ (nomGoMeths path ms).1, topOk kv.2 = true := by
  cases ms with
  | nil => simp [nomGoMeths, topOkMeths]
  | cons kv0 rest =>
    cases kv0 with
    | mk meth ty =>
      have hb1 : noBad ty = true ∧ noBadMeths rest = true := by
        simpa [noBadMeths, Bool.and_eq_true] using hb
      obtain ⟨h1, h2⟩ := nomGo_top (path ++ [TypePath.Id meth]) ty hb1.1
      obtain ⟨h3, h4⟩ := nomGoMeths_top path rest hb1.2
      rw [ctxPpOk_concat_id] at h1
      simp only [nomGoMeths]
      refine ⟨by simp [topOkMeths, h1, h3], ?_⟩
      intro kv hkv
      rcases List.mem_append.mp hkv with h | h
      · exact h2 kv h
      · exact h4 kv h
termination_by sizeOf ms
end

/-- For the `Option` monad, `mapM` succeeds when every element does. -/
theorem mapM_option_isSome {α β : Type} (f : α → Option β) (l : List α)
    (h : ∀ a ∈ l, (f a).isSome = true) : (l.mapM f).isSome = true := by
  induction l with
  | nil => rfl
  | cons a as ih =>
    rw [List.mapM_cons]
    obtain ⟨b, hb⟩ := Option.isSome_iff_exists.mp (h a (by simp))
    obtain ⟨bs, hbs⟩ :=
      Option.isSome_iff_exists.mp (ih (fun x hx => h x (by simp [hx])))
    simp only [hb, hbs, Option.some_bind, Option.bind_some,
      Option.isSome_some]
    rfl

mutual
/-- `pp_ty` succeeds on every `ppOk` type. -/
theorem pp_ty_isSome (t : Ty) (h : ppOk t = true) :
    (pp_ty t).isSome = true := by
  cases t with
  | Opt ty =>
    simp only [pp_ty, Option.isSome_map']
    exact pp_ty_isSome ty (by simpa [ppOk] using h)
  | Vec ty =>
    simp only [pp_ty, Option.isSome_map']
    exact pp_ty_isSome ty (by simpa [ppOk] using h)
  | Record fs =>
    simp only [pp_ty]
    unfold pp_record_fields
    split_ifs
    · simp only [Option.isSome_map']
      exact ppFieldsTuple_isSome fs (by simpa [ppOk] using h)
    · simp only [Option.isSome_map']
      exact ppFieldsNamed_isSome fs (by simpa [ppOk] using h)
  | Variant fs => simp [ppOk] at h
  | Class args ty => simp [ppOk] at h
  | Knot i => simp [ppOk] at h
  | Unknown => simp [ppOk] at h
  | Null => simp [pp_ty]
  | Bool => simp [pp_ty]
  | Nat => simp [pp_ty]
  | Int => simp [pp_ty]
  | Nat8 => simp [pp_ty]
  | Nat16 => simp [pp_ty]
  | Nat32 => simp [pp_ty]
  | Nat64 => simp [pp_ty]
  | Int8 => simp [pp_ty]
  | Int16 => simp [pp_ty]
  | Int32 => simp [pp_ty]
  | Int64 => simp [pp_ty]
  | Float32 => simp [pp_ty]
  | Float64 => simp [pp_ty]
  | Text => simp [pp_ty]
  | Reserved => simp [pp_ty]
  | Empty => simp [pp_ty]
  | Var s => simp [pp_ty]
  | Principal => simp [pp_ty]
  | Func f => simp [pp_ty]
  | Service ms => simp [pp_ty]
termination_by 2 * sizeOf t
decreasing_by
  all_goals (subst_vars; simp_wf; try omega)

theorem ppFieldsTuple_isSome (fs : List Field) (h : ppOkFields fs = true) :
    (ppFieldsTuple fs).isSome = true := by
  cases fs with
  | nil => simp [ppFieldsTuple]
  | cons f rest =>
    cases f with
    | mk id ty =>
      have h1 : ppOk ty = true ∧ ppOkFields rest = true := by
        simpa [ppOkFields, Bool.and_eq_true] using h
      obtain ⟨s1, hs1⟩ :=
        Option.isSome_iff_exists.mp (pp_ty_isSome ty h1.1)
      obtain ⟨s2, hs2⟩ :=
        Option.isSome_iff_exists.mp (ppFieldsTuple_isSome rest h1.2)
      simp [ppFieldsTuple, hs1, hs2]
termination_by 2 * sizeOf fs
decreasing_by
  all_goals (subst_vars; simp_wf; try omega)

theorem ppFieldsNamed_isSome (fs : List Field) (h : ppOkFields fs = true) :
    (ppFieldsNamed fs).isSome = true := by
  cases fs with
  | nil => simp [ppFieldsNamed]
  | cons f rest =>
    cases f with
    | mk id ty =>
      have h1 : ppOk ty = true ∧ ppOkFields rest = true := by
        simpa [ppOkFields, Bool.and_eq_true] using h
      obtain ⟨s1, hs1⟩ :=
        Option.isSome_iff_exists.mp (pp_record_field_isSome (Field.mk id ty)
          (by simpa [Field.ty] using h1.1))
      obtain ⟨s2, hs2⟩ :=
        Option.isSome_iff_exists.mp (ppFieldsNamed_isSome rest h1.2)
      simp [ppFieldsNamed, hs1, hs2]
termination_by 2 * sizeOf fs
decreasing_by
  all_goals (subst_vars; simp_wf; try omega)

theorem pp_record_field_isSome (f : Field) (h : ppOk f.ty = true) :
    (pp_record_field f).isSome = true := by
  cases f with
  | mk id ty =>
    simp only [pp_record_field, Option.isSome_map']
    exact pp_ty_isSome ty (by simpa [Field.ty] using h)
termination_by 2 * sizeOf f
decreasing_by
  all_goals (subst_vars; simp_wf; try omega)
end

/-- `pp_record_fields` succeeds on a renderable field list. -/
theorem pp_record_fields_isSome (fs : List Field) (h : ppOkFields fs = true) :
    (pp_record_fields fs).isSome = true := by
  unfold pp_record_fields
  split_ifs with ht
  · simp only [Option.isSome_map']
    exact ppFieldsTuple_isSome fs h
  · simp only [Option.isSome_map']
    exact ppFieldsNamed_isSome fs h

/-- A structural membership view of `topVariantFields`. -/
theorem topVariantFields_mem (fs : List Field) (h : topVariantFields fs = true) :
    ∀ f ∈ fs, payOk f.ty = true := by
  induction fs with
  | nil => simp
  | cons f rest ih =>
    cases f with
    | mk id ty =>
      have h1 : payOk ty = true ∧ topVariantFields rest = true := by
        simpa [topVariantFields, Bool.and_eq_true] using h
      intro g hg
      rcases List.mem_cons.mp hg with rfl | hg
      · simpa [Field.ty] using h1.1
      · exact ih h1.2 g hg

/-- `pp_variant_field` succeeds on every `payOk` payload. -/
theorem pp_variant_field_isSome (f : Field) (h : payOk f.ty = true) :
    (pp_variant_field f).isSome = true := by
  cases f with
  | mk id ty =>
    cases ty with
    | Null => simp [pp_variant_field]
    | Record gs =>
      simp only [pp_variant_field, Option.isSome_map']
      exact pp_record_fields_isSome gs (by simpa [payOk, Field.ty] using h)
    | Opt t =>
      simp only [pp_variant_field, Option.isSome_map']
      exact pp_ty_isSome _ (by simpa [payOk, Field.ty] using h)
    | Vec t =>
      simp only [pp_variant_field, Option.isSome_map']
      exact pp_ty_isSome _ (by simpa [payOk, Field.ty] using h)
    | Variant gs => simp [payOk, Field.ty, ppOk] at h
    | Class args t => simp [payOk, Field.ty, ppOk] at h
    | Knot i => simp [payOk, Field.ty, ppOk] at h
    | Unknown => simp [payOk, Field.ty, ppOk] at h
    | Bool => simp [pp_variant_field, pp_ty]
    | Nat => simp [pp_variant_field, pp_ty]
    | Int => simp [pp_variant_field, pp_ty]
    | Nat8 => simp [pp_variant_field, pp_ty]
    | Nat16 => simp [pp_variant_field, pp_ty]
    | Nat32 => simp [pp_variant_field, pp_ty]
    | Nat64 => simp [pp_variant_field, pp_ty]
    | Int8 => simp [pp_variant_field, pp_ty]
    | Int16 => simp [pp_variant_field, pp_ty]
    | Int32 => simp [pp_variant_field, pp_ty]
    | Int64 => simp [pp_variant_field, pp_ty]
    | Float32 => simp [pp_variant_field, pp_ty]
    | Float64 => simp [pp_variant_field, pp_ty]
    | Text => simp [pp_variant_field, pp_ty]
    | Reserved => simp [pp_variant_field, pp_ty]
    | Empty => simp [pp_variant_field, pp_ty]
    | Var s => simp [pp_variant_field, pp_ty]
    | Principal => simp [pp_variant_field, pp_ty]
    | Func g => simp [pp_variant_field, pp_ty]
    | Service ms => simp [pp_variant_field, pp_ty]

/-- `pp_variant_fields` succeeds on a renderable variant field list. -/
theorem pp_variant_fields_isSome (fs : List Field)
    (h : topVariantFields fs = true) :
    (pp_variant_fields fs).isSome = true := by
  simp only [pp_variant_fields, Option.isSome_map']
  exact mapM_option_isSome _ _
    (fun f hf => pp_variant_field_isSome f (topVariantFields_mem fs h f hf))

/-- One `pp_defs` entry succeeds on every `topOk` declaration body. -/
theorem pp_def1_isSome (id : String) (ty : Ty) (h : topOk ty = true) :
    (pp_def1 id ty).isSome = true := by
  cases ty with
  | Record fs =>
    simp only [pp_def1, Option.isSome_map']
    exact pp_record_fields_isSome fs (by simpa [topOk] using h)
  | Variant fs =>
    simp only [pp_def1, Option.isSome_map']
    exact pp_variant_fields_isSome fs (by simpa [topOk] using h)
  | Opt t =>
    simp only [pp_def1, pp_ty, Option.isSome_map']
    exact pp_ty_isSome t (by simpa [topOk, ppOk] using h)
  | Vec t =>
    simp only [pp_def1, pp_ty, Option.isSome_map']
    exact pp_ty_isSome t (by simpa [topOk, ppOk] using h)
  | Class args t => simp [topOk] at h
  | Knot i => simp [topOk] at h
  | Unknown => simp [topOk] at h
  | Null => simp [pp_def1, pp_ty]
  | Bool => simp [pp_def1, pp_ty]
  | Nat => simp [pp_def1, pp_ty]
  | Int => simp [pp_def1, pp_ty]
  | Nat8 => simp [pp_def1, pp_ty]
  | Nat16 => simp [pp_def1, pp_ty]
  | Nat32 => simp [pp_def1, pp_ty]
  | Nat64 => simp [pp_def1, pp_ty]
  | Int8 => simp [pp_def1, pp_ty]
  | Int16 => simp [pp_def1, pp_ty]
  | Int32 => simp [pp_def1, pp_ty]
  | Int64 => simp [pp_def1, pp_ty]
  | Float32 => simp [pp_def1, pp_ty]
  | Float64 => simp [pp_def1, pp_ty]
  | Text => simp [pp_def1, pp_ty]
  | Reserved => simp [pp_def1, pp_ty]
  | Empty => simp [pp_def1, pp_ty]
  | Var s => simp [pp_def1, pp_ty]
  | Principal => simp [pp_def1, pp_ty]
  | Func f => simp [pp_def1, pp_ty]
  | Service ms => simp [pp_def1, pp_ty]

/-- `pp_defs` succeeds on an environment of renderable declarations. -/
theorem pp_defs_isSome (env : TypeEnv) (h : envTopOk env = true) :
    (pp_defs env).isSome = true := by
  simp only [pp_defs, Option.isSome_map']
  exact mapM_option_isSome _ _
    (fun kv hkv => pp_def1_isSome kv.1 kv.2 (List.all_eq_true.mp h kv hkv))

/-- `pp_function` succeeds when all argument and result types render. -/
theorem pp_function_isSome (id : String) (f : Function)
    (ha : f.args.all ppOk = true) (hr : f.rets.all ppOk = true) :
    (pp_function id f).isSome = true := by
  cases f with
  | mk m a r =>
    have h1 : (a.enum.mapM (fun p =>
        (pp_ty p.2).map (fun s => "arg" ++ toString p.1 ++ ": " ++ s))).isSome
        = true := by
      apply mapM_option_isSome
      intro p hp
      rw [Option.isSome_map']
      apply pp_ty_isSome
      have hmem : p.2 ∈ a := by
        obtain ⟨i, hi, rfl⟩ := List.mem_iff_getElem.mp hp
        rw [List.getElem_enum]
        exact List.getElem_mem _
      exact List.all_eq_true.mp ha _ hmem
    have h2 : (r.mapM pp_ty).isSome = true := by
      apply mapM_option_isSome
      intro t ht
      exact pp_ty_isSome t (List.all_eq_true.mp hr _ ht)
    obtain ⟨as, has⟩ := Option.isSome_iff_exists.mp h1
    obtain ⟨rs, hrs⟩ := Option.isSome_iff_exists.mp h2
    simp only [pp_function]
    rw [has, hrs]
    rfl

/-! ### Lookup lemmas for `TypeEnv` (claim C5) -/

/-- Overwrite-insert of a present key: `find?` on the mapped entry list
returns the new pair. -/
theorem find_map_insert (l : List (String × Ty)) (k : String) (v : Ty)
    (hc : l.any (fun kv => kv.1 == k) = true) :
    (l.map (fun kv => if kv.1 == k then (k, v) else kv)).find?
      (fun kv => kv.1 == k) = some (k, v) := by
  induction l with
  | nil => simp at hc
  | cons e rest ih =>
    by_cases he : (e.1 == k) = true
    · simp only [List.map_cons, if_pos he]
      exact List.find?_cons_of_pos _ (by simp)
    · have he' : (e.1 == k) = false := by rwa [Bool.not_eq_true] at he
      have hc' : rest.any (fun kv => kv.1 == k) = true := by
        simpa [List.any_cons, he'] using hc
      simp only [List.map_cons, if_neg he]
      rw [List.find?_cons_of_neg _ (by simp [he'])]
      exact ih hc'

/-- Overwrite-insert of a present key does not change `find?` at another
key. -/
theorem find_map_insert_ne (l : List (String × Ty)) (k k2 : String) (v : Ty)
    (hne : k2 ≠ k) :
    (l.map (fun kv => if kv.1 == k then (k, v) else kv)).find?
      (fun kv => kv.1 == k2) = l.find? (fun kv => kv.1 == k2) := by
  induction l with
  | nil => rfl
  | cons e rest ih =>
    by_cases he : (e.1 == k) = true
    · have he1 : e.1 = k := by simpa using he
      have hp : ((k : String) == k2) = false := by
        simp only [beq_eq_false_iff_ne]
        exact fun h => hne h.symm
      have hp2 : (e.1 == k2) = false := by rw [he1]; exact hp
      simp only [List.map_cons, if_pos he]
      rw [List.find?_cons_of_neg _ (by simp [hp]),
        List.find?_cons_of_neg _ (by simp [hp2])]
      exact ih
    · simp only [List.map_cons, if_neg he]
      by_cases hp : (e.1 == k2) = true
      · rw [List.find?_cons_of_pos _ (by simp [hp]),
          List.find?_cons_of_pos _ (by simp [hp])]
      · have hp' : (e.1 == k2) = false := by rwa [Bool.not_eq_true] at hp
        rw [List.find?_cons_of_neg _ (by simp [hp']),
          List.find?_cons_of_neg _ (by simp [hp'])]
        exact ih

/-- `find?` skips a prefix on which it fails. -/
theorem find_append_of_none (l l2 : List (String × Ty))
    (p : String × Ty → Bool) (h : l.find? p = none) :
    (l ++ l2).find? p = l2.find? p := by
  rw [List.find?_append, h]; rfl

/-- `find` after `insert` at the inserted key. -/
theorem find_insert_self (env : TypeEnv) (k : String) (v : Ty) :
    (env.insert k v).find k = some v := by
  unfold TypeEnv.insert TypeEnv.find
  split_ifs with hc
  · rw [find_map_insert env.entries k v hc]
  · have hnone : env.entries.find? (fun kv => kv.1 == k) = none := by
      rw [List.find?_eq_none]
      intro x hx hpx
      exact hc (List.any_eq_true.mpr ⟨x, hx, hpx⟩)
    rw [find_append_of_none _ _ _ hnone,
      List.find?_cons_of_pos _ (by simp)]

/-- `find` after `insert` at a different key is unchanged. -/
theorem find_insert_ne (env : TypeEnv) (k : String) (v : Ty) (k2 : String)
    (hne : k2 ≠ k) :
    (env.insert k v).find k2 = env.find k2 := by
  unfold TypeEnv.insert TypeEnv.find
  split_ifs with hc
  · rw [find_map_insert_ne env.entries k k2 v hne]
  · have hp : (((k, v) : String × Ty).1 == k2) = false := by
      simp only [beq_eq_false_iff_ne]
      exact fun h => hne h.symm
    cases hfind : env.entries.find? (fun kv => kv.1 == k2) with
    | some kv =>
      have happ : (env.entries ++ [(k, v)]).find?
          (fun kv => kv.1 == k2) = some kv := by
        rw [List.find?_append, hfind]; rfl
      rw [happ]
    | none =>
      have happ : (env.entries ++ [(k, v)]).find?
          (fun kv => kv.1 == k2) = none := by
        rw [find_append_of_none _ _ _ hfind,
          List.find?_cons_of_neg _ (by simp [hp])]
        rfl
      rw [happ]

/-- Folding inserts whose keys all differ from `k` leaves `find k`
unchanged. -/
theorem find_foldl_insert_fresh (l : List (String × Ty)) :
    ∀ env : TypeEnv, ∀ k : String, (∀ kv ∈ l, kv.1 ≠ k) →
      ((l.foldl (fun e kv => e.insert kv.1 kv.2) env).find k) = env.find k := by
  induction l with
  | nil => intro env k _; rfl
  | cons e rest ih =>
    intro env k h
    rw [List.foldl_cons]
    rw [ih _ k (fun kv hkv => h kv (by simp [hkv]))]
    exact find_insert_ne env e.1 e.2 k (fun heq => h e (by simp) heq.symm)

/-- The declaration loop of `nominalize_all` does not touch `find k` for a
key distinct from every processed declaration name and every hoisted
name. -/
theorem fold_nominalize_find_fresh (l : List (String × Ty)) :
    ∀ acc : TypeEnv, ∀ k : String,
      (∀ kv ∈ l, kv.1 ≠ k ∧
        ∀ nm ∈ (nomGo [TypePath.Id kv.1] kv.2).1.map Prod.fst, nm ≠ k) →
      ((l.foldl (fun res kv =>
          let r := nominalize res [TypePath.Id kv.1] kv.2
          r.1.insert kv.1 r.2) acc).find k) = acc.find k := by
  induction l with
  | nil => intro acc k _; rfl
  | cons e rest ih =>
    intro acc k h
    rw [List.foldl_cons]
    rw [ih _ k (fun kv hkv => h kv (by simp [hkv]))]
    simp only [nominalize]
    rw [find_insert_ne _ e.1 _ k (fun heq => (h e (by simp)).1 heq.symm)]
    apply find_foldl_insert_fresh
    intro kv hkv
    exact (h e (by simp)).2 kv.1 (List.mem_map_of_mem Prod.fst hkv)

/-- After the declaration loop, each processed key is bound to its
nominalized value (distinct keys, hoist names fresh). -/
theorem fold_nominalize_find (l : List (String × Ty)) :
    ∀ acc : TypeEnv,
      (l.map Prod.fst).Nodup →
      (∀ kv ∈ l, ∀ nm ∈ (nomGo [TypePath.Id kv.1] kv.2).1.map Prod.fst,
        ∀ kv2 ∈ l, nm ≠ kv2.1) →
      ∀ kv ∈ l,
        ((l.foldl (fun res kv2 =>
            let r := nominalize res [TypePath.Id kv2.1] kv2.2
            r.1.insert kv2.1 r.2) acc).find kv.1)
          = some ((nomGo [TypePath.Id kv.1] kv.2).2) := by
  induction l with
  | nil =>
    intro acc _ _ kv hkv
    cases hkv
  | cons e rest ih =>
    intro acc hnd hfr kv hkv
    rw [List.map_cons, List.nodup_cons] at hnd
    rw [List.foldl_cons]
    rcases List.mem_cons.mp hkv with heq | hmem
    · subst heq
      rw [fold_nominalize_find_fresh rest _ kv.1 ?_]
      · simp only [nominalize]
        exact find_insert_self _ _ _
      · intro kv2 hkv2
        refine ⟨fun hc => hnd.1 (hc ▸ List.mem_map_of_mem Prod.fst hkv2), ?_⟩
        intro nm hnm
        exact hfr kv2 (by simp [hkv2]) nm hnm kv (by simp)
    · exact ih _ hnd.2
        (fun kv2 h2 nm hnm kv3 h3 => hfr kv2 (by simp [h2]) nm hnm kv3 (by simp [h3]))
        kv hmem

/-- A name hoisted while processing an environment entry differs from every
input declaration name, given `hoistFresh`. -/
theorem hoistFresh_entry (env : TypeEnv) (actor : Option Ty)
    (hfresh : hoistFresh env actor = true) (kv : String × Ty)
    (hkv : kv ∈ env.entries) (nm : String)
    (hnm : nm ∈ (nomGo [TypePath.Id kv.1] kv.2).1.map Prod.fst)
    (kv2 : String × Ty) (hkv2 : kv2 ∈ env.entries) : nm ≠ kv2.1 := by
  have hin : nm ∈ hoistNames env actor := by
    unfold hoistNames
    apply List.mem_append_left
    rw [List.mem_flatten]
    exact ⟨_, List.mem_map_of_mem _ hkv, hnm⟩
  have h1 := List.all_eq_true.mp hfresh nm hin
  simp only [Bool.not_eq_true'] at h1
  intro heq
  have h2 : env.entries.any (fun kv => kv.1 == nm) = true :=
    List.any_eq_true.mpr ⟨kv2, hkv2, by simp [heq]⟩
  rw [h1] at h2
  exact Bool.noConfusion h2

/-- A name hoisted while processing the entry point differs from every input
declaration name, given `hoistFresh`. -/
theorem hoistFresh_actor (env : TypeEnv) (a : Ty)
    (hfresh : hoistFresh env (some a) = true) (nm : String)
    (hnm : nm ∈ (nomGo [] a).1.map Prod.fst)
    (kv2 : String × Ty) (hkv2 : kv2 ∈ env.entries) : nm ≠ kv2.1 := by
  have hin : nm ∈ hoistNames env (some a) := by
    unfold hoistNames
    exact List.mem_append_right _ hnm
  have h1 := List.all_eq_true.mp hfresh nm hin
  simp only [Bool.not_eq_true'] at h1
  intro heq
  have h2 : env.entries.any (fun kv => kv.1 == nm) = true :=
    List.any_eq_true.mpr ⟨kv2, hkv2, by simp [heq]⟩
  rw [h1] at h2
  exact Bool.noConfusion h2

/-- The output environment of `nominalize_all` binds every input key to its
nominalized value (distinct keys, hoist names fresh). -/
theorem nominalize_all_find (env : TypeEnv) (actor : Option Ty)
    (hnd : (env.entries.map Prod.fst).Nodup)
    (hfresh : hoistFresh env actor = true) :
    ∀ kv ∈ env.entries,
      (nominalize_all env actor).1.find kv.1
        = some ((nomGo [TypePath.Id kv.1] kv.2).2) := by
  intro kv hkv
  have hfold := fold_nominalize_find env.entries ⟨[]⟩ hnd
    (fun kv2 h2 nm hnm kv3 h3 =>
      hoistFresh_entry env actor hfresh kv2 h2 nm hnm kv3 h3)
    kv hkv
  rw [nominalize_all.eq_def]
  cases actor with
  | none => simpa using hfold
  | some a =>
    simp only [nominalize]
    rw [find_foldl_insert_fresh _ _ _ ?_]
    · exact hfold
    · intro kv2 hkv2
      exact hoistFresh_actor env a hfresh kv2.1
        (List.mem_map_of_mem _ hkv2) kv hkv

/-- A key that `find` resolves is among the entry names. -/
theorem find_isSome_mem (env : TypeEnv) (k : String)
    (h : (env.find k).isSome = true) : k ∈ env.entries.map Prod.fst := by
  unfold TypeEnv.find at h
  cases hf : env.entries.find? (fun kv => kv.1 == k) with
  | none => rw [hf] at h; simp at h
  | some kv =>
    have h1 := List.mem_of_find?_eq_some hf
    have h2 : kv.1 = k := by simpa using List.find?_some hf
    rw [← h2]
    exact List.mem_map_of_mem Prod.fst h1

/-- A `find` that succeeds exposes a matching entry. -/
theorem find_eq_entry (env : TypeEnv) (k : String) (t2 : Ty)
    (h : env.find k = some t2) : (k, t2) ∈ env.entries := by
  unfold TypeEnv.find at h
  cases hf : env.entries.find? (fun kv => kv.1 == k) with
  | none => rw [hf] at h; exact Option.noConfusion h
  | some kv =>
    rw [hf] at h
    have h1 := List.mem_of_find?_eq_some hf
    have h2 : kv.1 = k := by simpa using List.find?_some hf
    have h3 : kv.2 = t2 := Option.some.inj h
    rw [← h2, ← h3]
    simpa using h1

/-- Distinct keys all resolvable in an environment bound its size. -/
theorem length_le_of_find (ks : List String) (env : TypeEnv)
    (hnd : ks.Nodup) (h : ∀ k ∈ ks, (env.find k).isSome = true) :
    ks.length ≤ env.entries.length := by
  classical
  have hsub : ks ⊆ env.entries.map Prod.fst := fun k hk =>
    find_isSome_mem env k (h k hk)
  calc ks.length = ks.toFinset.card := (List.toFinset_card_of_nodup hnd).symm
    _ ≤ (env.entries.map Prod.fst).toFinset.card :=
        Finset.card_le_card (by
          intro x hx
          simp only [List.mem_toFinset] at hx ⊢
          exact hsub hx)
    _ ≤ (env.entries.map Prod.fst).length :=
        (env.entries.map Prod.fst).toFinset_card_le
    _ = env.entries.length := by simp

/-- `nomGo` on a `Var` leaf. -/
theorem nomGo_var (p : List TypePath) (s : String) :
    nomGo p (Ty.Var s) = ([], Ty.Var s) := by
  rw [nomGo.eq_def]

/-- `nomGo` on a `Service`: the traversed method list, no hoist of the
service node itself. -/
theorem nomGo_service (p : List TypePath) (ms : List (String × Ty)) :
    nomGo p (Ty.Service ms)
      = ((nomGoMeths p ms).1, Ty.Service ((nomGoMeths p ms).2)) := by
  rw [nomGo.eq_def]

/-- `nomGo` on a `Func`: arguments and results traversed with enumerated
path segments. -/
theorem nomGo_func (p : List TypePath) (m : List Nat) (a r : List Ty) :
    nomGo p (Ty.Func (Function.mk m a r))
      = ((nomGoNumList p ("arg") 0 a).1 ++ (nomGoNumList p ("ret") 0 r).1,
         Ty.Func (Function.mk m ((nomGoNumList p ("arg") 0 a).2)
           ((nomGoNumList p ("ret") 0 r).2))) := by
  rw [nomGo.eq_def]

/-- The method list of a nominalized service: same names, each type
nominalized under the path extended with the method name. -/
theorem nomGoMeths_result (q : List TypePath) (ms : List (String × Ty)) :
    (nomGoMeths q ms).2
      = ms.map (fun m => (m.1, (nomGo (q ++ [TypePath.Id m.1]) m.2).2)) := by
  induction ms with
  | nil => rw [nomGoMeths.eq_def]; rfl
  | cons m rest ih =>
    cases m with
    | mk nm ty =>
      rw [nomGoMeths.eq_def]
      simp only [List.map_cons]
      rw [ih]

/-- Membership form of `noBadMeths`. -/
theorem noBadMeths_mem : ∀ ms : List (String × Ty), noBadMeths ms = true →
    ∀ m ∈ ms, noBad m.2 = true := by
  intro ms
  induction ms with
  | nil =>
    intro _ m hm
    cases hm
  | cons e rest ih =>
    intro h m hm
    obtain ⟨nm, ty⟩ := e
    simp only [noBadMeths, Bool.and_eq_true] at h
    rcases List.mem_cons.mp hm with heq | hm'
    · rw [heq]
      exact h.1
    · exact ih h.2 m hm'

/-- Service resolution commutes with nominalization: a chain of `Var`
indirections ending in a `Service` in the input environment is mirrored in
the nominalized environment, landing on the nominalized method list. -/
theorem asServiceGo_sim (env E2 : TypeEnv)
    (hfind : ∀ k t2, env.find k = some t2 →
      noBad t2 = true ∧ E2.find k = some ((nomGo [TypePath.Id k] t2).2)) :
    ∀ (fuel : Nat) (t : Ty) (ms : List (String × Ty)),
      asServiceGo env fuel t = some ms → noBad t = true →
      ∀ p : List TypePath,
      ∃ q, asServiceGo E2 fuel ((nomGo p t).2) = some ((nomGoMeths q ms).2)
        ∧ noBadMeths ms = true := by
  intro fuel
  induction fuel with
  | zero =>
    intro t ms h
    exact absurd h (by simp [asServiceGo])
  | succ fuel ih =>
    intro t ms h hb p
    have hshape : (∃ ms0, t = Ty.Service ms0) ∨ (∃ s, t = Ty.Var s) := by
      cases t <;> simp_all [asServiceGo]
    rcases hshape with ⟨ms0, rfl⟩ | ⟨s, rfl⟩
    · have hms : ms0 = ms := by simpa [asServiceGo] using h
      subst hms
      refine ⟨p, ?_, by simpa [noBad] using hb⟩
      rw [nomGo_service]
      rfl
    · have hstep0 : asServiceGo env (fuel + 1) (Ty.Var s)
          = (match env.find s with
             | some t2 => asServiceGo env fuel t2
             | none => none) := rfl
      rw [hstep0] at h
      cases hf : env.find s with
      | none =>
        rw [hf] at h
        exact Option.noConfusion h
      | some t2 =>
        rw [hf] at h
        obtain ⟨hb2, hE2⟩ := hfind s t2 hf
        obtain ⟨q, hq, hn⟩ := ih t2 ms h hb2 [TypePath.Id s]
        refine ⟨q, ?_, hn⟩
        rw [nomGo_var]
        show (match E2.find s with
              | some t3 => asServiceGo E2 fuel t3
              | none => none) = some ((nomGoMeths q ms).2)
        rw [hE2]
        exact hq

/-- Function resolution commutes with nominalization: a chain of `Var`
indirections ending in a `Func` in the input environment is mirrored in the
nominalized environment, landing on a function whose argument and result
types all render. -/
theorem asFuncGo_sim (env E2 : TypeEnv)
    (hfind : ∀ k t2, env.find k = some t2 →
      noBad t2 = true ∧ E2.find k = some ((nomGo [TypePath.Id k] t2).2)) :
    ∀ (fuel : Nat) (t : Ty) (f : Function),
      asFuncGo env fuel t = some f → noBad t = true →
      ∀ p : List TypePath, variantInlinePos p.getLast? = true →
      ∃ f2, asFuncGo E2 fuel ((nomGo p t).2) = some f2 ∧
        f2.args.all ppOk = true ∧ f2.rets.all ppOk = true := by
  intro fuel
  induction fuel with
  | zero =>
    intro t f h
    exact absurd h (by simp [asFuncGo])
  | succ fuel ih =>
    intro t f h hb p hp
    have hshape : (∃ f0, t = Ty.Func f0) ∨ (∃ s, t = Ty.Var s) := by
      cases t <;> simp_all [asFuncGo]
    rcases hshape with ⟨f0, rfl⟩ | ⟨s, rfl⟩
    · obtain ⟨m, a, r⟩ := f0
      obtain ⟨h1, _⟩ := nomGo_top p (Ty.Func (Function.mk m a r)) hb
      unfold ctxPpOk at h1
      rw [if_pos hp] at h1
      rw [nomGo_func] at h1
      simp only [topOk, Bool.and_eq_true, List.all_eq_true] at h1
      refine ⟨Function.mk m ((nomGoNumList p ("arg") 0 a).2)
        ((nomGoNumList p ("ret") 0 r).2), ?_, ?_, ?_⟩
      · rw [nomGo_func]
        rfl
      · exact List.all_eq_true.mpr h1.1
      · exact List.all_eq_true.mpr h1.2
    · have hstep0 : asFuncGo env (fuel + 1) (Ty.Var s)
          = (match env.find s with
             | some t2 => asFuncGo env fuel t2
             | none => none) := rfl
      rw [hstep0] at h
      cases hf : env.find s with
      | none =>
        rw [hf] at h
        exact Option.noConfusion h
      | some t2 =>
        rw [hf] at h
        obtain ⟨hb2, hE2⟩ := hfind s t2 hf
        obtain ⟨f2, hf2, ha2, hr2⟩ := ih t2 f h hb2 [TypePath.Id s]
          (by simp [variantInlinePos, List.getLast?_singleton])
        refine ⟨f2, ?_, ha2, hr2⟩
        rw [nomGo_var]
        show (match E2.find s with
              | some t3 => asFuncGo E2 fuel t3
              | none => none) = some f2
        rw [hE2]
        exact hf2

/-- More fuel never turns a successful service resolution into a failure. -/
theorem asServiceGo_mono (env : TypeEnv) :
    ∀ (f1 : Nat) (t : Ty) (ms : List (String × Ty)) (f2 : Nat), f1 ≤ f2 →
      asServiceGo env f1 t = some ms → asServiceGo env f2 t = some ms := by
  intro f1
  induction f1 with
  | zero =>
    intro t ms f2 _ h
    exact absurd h (by simp [asServiceGo])
  | succ f1 ih =>
    intro t ms f2 hle h
    obtain ⟨f2p, rfl⟩ : ∃ f2p, f2 = f2p + 1 := ⟨f2 - 1, by omega⟩
    have hshape : (∃ ms0, t = Ty.Service ms0) ∨ (∃ s, t = Ty.Var s) := by
      cases t <;> simp_all [asServiceGo]
    rcases hshape with ⟨ms0, rfl⟩ | ⟨s, rfl⟩
    · simp only [asServiceGo] at h ⊢
      exact h
    · have hstep1 : asServiceGo env (f1 + 1) (Ty.Var s)
          = (match env.find s with
             | some t2 => asServiceGo env f1 t2
             | none => none) := rfl
      have hstep2 : asServiceGo env (f2p + 1) (Ty.Var s)
          = (match env.find s with
             | some t2 => asServiceGo env f2p t2
             | none => none) := rfl
      rw [hstep1] at h
      rw [hstep2]
      cases hf : env.find s with
      | none =>
        rw [hf] at h
        exact Option.noConfusion h
      | some t2 =>
        rw [hf] at h
        exact ih t2 ms f2p (by omega) h

/-- More fuel never turns a successful function resolution into a failure. -/
theorem asFuncGo_mono (env : TypeEnv) :
    ∀ (f1 : Nat) (t : Ty) (f : Function) (f2 : Nat), f1 ≤ f2 →
      asFuncGo env f1 t = some f → asFuncGo env f2 t = some f := by
  intro f1
  induction f1 with
  | zero =>
    intro t f f2 _ h
    exact absurd h (by simp [asFuncGo])
  | succ f1 ih =>
    intro t f f2 hle h
    obtain ⟨f2p, rfl⟩ : ∃ f2p, f2 = f2p + 1 := ⟨f2 - 1, by omega⟩
    have hshape : (∃ f0, t = Ty.Func f0) ∨ (∃ s, t = Ty.Var s) := by
      cases t <;> simp_all [asFuncGo]
    rcases hshape with ⟨f0, rfl⟩ | ⟨s, rfl⟩
    · simp only [asFuncGo] at h ⊢
      exact h
    · have hstep1 : asFuncGo env (f1 + 1) (Ty.Var s)
          = (match env.find s with
             | some t2 => asFuncGo env f1 t2
             | none => none) := rfl
      have hstep2 : asFuncGo env (f2p + 1) (Ty.Var s)
          = (match env.find s with
             | some t2 => asFuncGo env f2p t2
             | none => none) := rfl
      rw [hstep1] at h
      rw [hstep2]
      cases hf : env.find s with
      | none =>
        rw [hf] at h
        exact Option.noConfusion h
      | some t2 =>
        rw [hf] at h
        exact ih t2 f f2p (by omega) h

/-- The per-declaration loop of `nominalize_all` makes every stored value
renderable as a top-level declaration. -/
theorem fold_nominalize_top (l : List (String × Ty)) :
    ∀ acc : TypeEnv, (∀ kv ∈ l, noBad kv.2 = true) →
      acc.entries.all (fun kv => topOk kv.2) = true →
      (((l.foldl (fun res kv =>
          let r := nominalize res [TypePath.Id kv.1] kv.2
          r.1.insert kv.1 r.2) acc).entries.all
        (fun kv => topOk kv.2))) = true := by
  induction l with
  | nil =>
    intro acc _ h
    simpa using h
  | cons kv rest ih =>
    intro acc hnb h
    rw [List.foldl_cons]
    obtain ⟨h1, h2⟩ := nomGo_top [TypePath.Id kv.1] kv.2 (hnb kv (by simp))
    rw [ctxPpOk_single_id] at h1
    refine ih _ (fun kv2 h2' => hnb kv2 (by simp [h2'])) ?_
    simp only [nominalize]
    exact env_all_insert _ _ _ _
      (env_all_foldl_insert _ _ acc h h2) h1

/-- `pp_actor` succeeds on the nominalized entry point when the input
resolves and the nominalized environment simulates the input's lookups. -/
theorem pp_actor_sim (env E2 : TypeEnv) (a : Ty)
    (hfind : ∀ k t2, env.find k = some t2 →
      noBad t2 = true ∧ E2.find k = some ((nomGo [TypePath.Id k] t2).2))
    (hlen : env.entries.length ≤ E2.entries.length)
    (hba : noBad a = true)
    (hres : actorResolves env (some a) = true) :
    (pp_actor E2 ((nomGo [] a).2)).isSome = true := by
  have hres2 : (match env.as_service a with
      | none => false
      | some ms => ms.all (fun m => (env.as_func m.2).isSome)) = true := hres
  cases hsv : env.as_service a with
  | none =>
    rw [hsv] at hres2
    exact absurd hres2 (by simp)
  | some ms =>
    rw [hsv] at hres2
    have hgo : asServiceGo env (env.entries.length + 1) a = some ms := hsv
    obtain ⟨q, hq, hnb⟩ :=
      asServiceGo_sim env E2 hfind (env.entries.length + 1) a ms hgo hba []
    have hq2 : asServiceGo E2 (E2.entries.length + 1) ((nomGo [] a).2)
        = some ((nomGoMeths q ms).2) :=
      asServiceGo_mono E2 _ _ _ _ (by omega) hq
    have hsv2 : TypeEnv.as_service E2 ((nomGo [] a).2)
        = some ((nomGoMeths q ms).2) := hq2
    have hmm : (((nomGoMeths q ms).2).mapM (fun (m : String × Ty) =>
        match E2.as_func m.2 with
        | none => none
        | some f => pp_function m.1 f)).isSome = true := by
      apply mapM_option_isSome
      intro m hm
      rw [nomGoMeths_result] at hm
      obtain ⟨m0, hm0, rfl⟩ := List.mem_map.mp hm
      have hfm : (env.as_func m0.2).isSome = true :=
        List.all_eq_true.mp hres2 m0 hm0
      obtain ⟨f, hf⟩ := Option.isSome_iff_exists.mp hfm
      have hnbm : noBad m0.2 = true := noBadMeths_mem ms hnb m0 hm0
      obtain ⟨f2, hf2, ha2, hr2⟩ :=
        asFuncGo_sim env E2 hfind (env.entries.length + 1) m0.2 f hf hnbm
          (q ++ [TypePath.Id m0.1])
          (by simp [List.getLast?_concat, variantInlinePos])
      have hf2m : asFuncGo E2 (E2.entries.length + 1)
          ((nomGo (q ++ [TypePath.Id m0.1]) m0.2).2) = some f2 :=
        asFuncGo_mono E2 _ _ _ _ (by omega) hf2
      show (match E2.as_func ((nomGo (q ++ [TypePath.Id m0.1]) m0.2).2) with
            | none => none
            | some f => pp_function m0.1 f).isSome = true
      have hfn : TypeEnv.as_func E2
          ((nomGo (q ++ [TypePath.Id m0.1]) m0.2).2) = some f2 := hf2m
      rw [hfn]
      exact pp_function_isSome m0.1 f2 ha2 hr2
    obtain ⟨sigs, hsigs⟩ := Option.isSome_iff_exists.mp hmm
    simp only [pp_actor, hsv2, hsigs, Option.isSome_some]

/-- **C5** (amended): rendering the nominalized output reaches no fatal arm
— `compile` returns `some` — provided, beyond the claim's stated
preconditions (the entry point resolves through `Var` indirections to a
`Service` whose method types all resolve to `Func`s), the input also
contains no `Class` constructor (`noBad`, which also excludes the `Knot` /
`Unknown` recursion sentinels), its declaration names are distinct, and the
names synthesized by hoisting are fresh (spec section 9's open collision
risk, excluded by hypothesis).  The claim as stated, without the last three
conditions, is refuted by `Candid.compile_fatal_on_class`. -/
theorem compile_total (env : TypeEnv) (actor : Option Ty)
    (hB : envNoBad env = true) (hBA : actorNoBad actor = true)
    (hres : actorResolves env actor = true)
    (hnd : (env.entries.map Prod.fst).Nodup)
    (hfresh : hoistFresh env actor = true) :
    (compile env actor).isSome = true := by
  cases actor with
  | none =>
    have htop := fold_nominalize_top env.entries ⟨[]⟩
      (fun kv h => List.all_eq_true.mp hB kv h) (by simp)
    have htop2 : envTopOk (nominalize_all env none).1 = true := htop
    have hdefs := pp_defs_isSome _ htop2
    have hpair : nominalize_all env none
        = ((nominalize_all env none).1, none) := rfl
    unfold compile
    rw [hpair]
    show (Option.map _ (pp_defs (nominalize_all env none).1)).isSome = true
    rw [Option.isSome_map']
    exact hdefs
  | some a =>
    have hba : noBad a = true := by simpa [actorNoBad] using hBA
    have hfold := fold_nominalize_top env.entries ⟨[]⟩
      (fun kv h => List.all_eq_true.mp hB kv h) (by simp)
    obtain ⟨_, hhoist⟩ := nomGo_top [] a hba
    have htop2 : envTopOk (nominalize_all env (some a)).1 = true := by
      have h := env_all_foldl_insert topOk (nomGo [] a).1 _ hfold hhoist
      exact h
    have hfind : ∀ k t2, env.find k = some t2 →
        noBad t2 = true ∧ (nominalize_all env (some a)).1.find k
          = some ((nomGo [TypePath.Id k] t2).2) := by
      intro k t2 hk
      have hmem := find_eq_entry env k t2 hk
      exact ⟨List.all_eq_true.mp hB (k, t2) hmem,
        nominalize_all_find env (some a) hnd hfresh (k, t2) hmem⟩
    have hlen : env.entries.length
        ≤ (nominalize_all env (some a)).1.entries.length := by
      have h1 : ∀ k ∈ env.entries.map Prod.fst,
          (((nominalize_all env (some a)).1.find k)).isSome = true := by
        intro k hk
        obtain ⟨kv, hkv, rfl⟩ := List.mem_map.mp hk
        rw [nominalize_all_find env (some a) hnd hfresh kv hkv]
        rfl
      have h2 := length_le_of_find (env.entries.map Prod.fst) _ hnd h1
      simpa using h2
    have hact :=
      pp_actor_sim env (nominalize_all env (some a)).1 a hfind hlen hba hres
    have hdefs := pp_defs_isSome _ htop2
    obtain ⟨d, hd⟩ := Option.isSome_iff_exists.mp hdefs
    obtain ⟨s, hs⟩ := Option.isSome_iff_exists.mp hact
    have hpair : nominalize_all env (some a)
        = ((nominalize_all env (some a)).1, some ((nomGo [] a).2)) := rfl
    unfold compile
    rw [hpair]
    show (match pp_defs (nominalize_all env (some a)).1,
        pp_actor (nominalize_all env (some a)).1 ((nomGo [] a).2) with
      | some d, some s => some ("// This is an experimental feature to generate Rust binding from Candid.\n// You may want to manually adjust some of the types.\n" ++ "\n" ++ d ++ s)
      | _, _ => none).isSome = true
    rw [hd, hs]
    rfl

/-- **C5, witness**: the totality theorem applied to a concrete environment
(one function alias) and entry point (a service with one method resolving
through a `Var`). -/
theorem compile_total_witness :
    envNoBad ⟨[("f", Ty.Func (Function.mk [] [Ty.Nat] [Ty.Text]))]⟩ = true ∧
    actorNoBad (some (Ty.Service [("m", Ty.Var "f")])) = true ∧
    actorResolves ⟨[("f", Ty.Func (Function.mk [] [Ty.Nat] [Ty.Text]))]⟩
      (some (Ty.Service [("m", Ty.Var "f")])) = true ∧
    ((⟨[("f", Ty.Func (Function.mk [] [Ty.Nat] [Ty.Text]))]⟩
      : TypeEnv).entries.map Prod.fst).Nodup ∧
    hoistFresh ⟨[("f", Ty.Func (Function.mk [] [Ty.Nat] [Ty.Text]))]⟩
      (some (Ty.Service [("m", Ty.Var "f")])) = true ∧
    (compile ⟨[("f", Ty.Func (Function.mk [] [Ty.Nat] [Ty.Text]))]⟩
      (some (Ty.Service [("m", Ty.Var "f")]))).isSome = true := by
  have h1 : nomGo [TypePath.Id "f"]
      (Ty.Func (Function.mk [] [Ty.Nat] [Ty.Text]))
      = ([], Ty.Func (Function.mk [] [Ty.Nat] [Ty.Text])) := by
    simp only [nomGo.eq_def, nomGoNumList.eq_def, List.nil_append,
      List.append_nil]
  have h2 : nomGo [] (Ty.Service [("m", Ty.Var "f")])
      = ([], Ty.Service [("m", Ty.Var "f")]) := by
    simp only [nomGo.eq_def, nomGoMeths.eq_def, List.nil_append,
      List.append_nil]
  have hfresh : hoistFresh
      ⟨[("f", Ty.Func (Function.mk [] [Ty.Nat] [Ty.Text]))]⟩
      (some (Ty.Service [("m", Ty.Var "f")])) = true := by
    simp [hoistFresh, hoistNames, h1, h2]
  refine ⟨by decide, by decide, by decide, by decide, hfresh, ?_⟩
  exact compile_total _ _ (by decide) (by decide) (by decide) (by decide)
    hfresh

/-- **C5, counterexample**: the claim's stated preconditions are not enough.
The single declaration `c = Class([], Service([]))` contains no recursion
sentinel (`noKnot`) and there is no entry point (so resolution holds
vacuously), yet `compile` aborts: the `Class` node reaches `pp_ty`'s
`unreachable!` arm. -/
theorem compile_fatal_on_class :
    noKnot (Ty.Class [] (Ty.Service [])) = true ∧
    actorResolves ⟨[("c", Ty.Class [] (Ty.Service []))]⟩ none = true ∧
    compile ⟨[("c", Ty.Class [] (Ty.Service []))]⟩ none = none := by
  refine ⟨by decide, by decide, ?_⟩
  have e1 : nomGo [TypePath.Id "c"] (Ty.Class [] (Ty.Service []))
      = ([], Ty.Class [] (Ty.Service [])) := by
    simp only [nomGo.eq_def, nomGoClassArgs.eq_def, nomGoMeths.eq_def,
      List.nil_append, List.append_nil]
  have e2 : nominalize_all ⟨[("c", Ty.Class [] (Ty.Service []))]⟩ none
      = (⟨[("c", Ty.Class [] (Ty.Service []))]⟩, none) := by
    simp only [nominalize_all, nominalize, List.foldl_cons, List.foldl_nil,
      e1]
    rfl
  have e3 : pp_ty (Ty.Class [] (Ty.Service [])) = none := by
    rw [pp_ty.eq_def]
  have e3b : pp_def1 ("c") (Ty.Class [] (Ty.Service [])) = none := by
    simp [pp_def1, e3]
  have e4 : pp_defs ⟨[("c", Ty.Class [] (Ty.Service []))]⟩ = none := by
    simp [pp_defs, List.mapM_cons, List.mapM.loop, e3b]
  simp [compile, e2, e4]

/-! ### The Vec path token (claim C2) -/

/-- **C2 (code bug)**: nominalizing the single declaration
`a = vec record { b : nat }` hoists the nested record under the synthesized
name `"a_inner"`, because the `Vec` arm of `nominalize` pushes
`TypePath.Opt` (token `"inner"`); the unused `TypePath.Vec` segment carries
the token `"item"` the spec expects. -/
theorem vec_step_token_is_inner :
    (nominalize_all
        ⟨[("a", Ty.Vec (Ty.Record [Field.mk (Label.Named "b") Ty.Nat]))]⟩
        none).1.entries
      = [("a_inner", Ty.Record [Field.mk (Label.Named "b") Ty.Nat]),
         ("a", Ty.Vec (Ty.Var "a_inner"))]
      ∧ TypePath.token TypePath.Vec = "item"
      ∧ TypePath.token TypePath.Opt = "inner" := by
  refine ⟨?_, rfl, rfl⟩
  have e1 : nomGo [TypePath.Id "a_inner"]
        (Ty.Record [Field.mk (Label.Named "b") Ty.Nat])
      = ([], Ty.Record [Field.mk (Label.Named "b") Ty.Nat]) :=
    nomGo_flatBody _ _ (by decide)
  have e2 : nomGo ([TypePath.Id "a"] ++ [TypePath.Opt])
        (Ty.Record [Field.mk (Label.Named "b") Ty.Nat])
      = ([("a_inner", Ty.Record [Field.mk (Label.Named "b") Ty.Nat])],
          Ty.Var "a_inner") := by
    rw [nomGo.eq_def]
    have hc : (recordInlinePos ([TypePath.Id "a", TypePath.Opt].getLast?)
        || is_tuple [Field.mk (Label.Named "b") Ty.Nat]) = false := by decide
    simp only [List.cons_append, List.nil_append]
    rw [show path_to_var [TypePath.Id "a", TypePath.Opt] = "a_inner" from by
      decide]
    rw [e1]
    simp only [hc, Bool.false_eq_true, if_false]
    rfl
  have e3 : nomGo [TypePath.Id "a"]
        (Ty.Vec (Ty.Record [Field.mk (Label.Named "b") Ty.Nat]))
      = ([("a_inner", Ty.Record [Field.mk (Label.Named "b") Ty.Nat])],
          Ty.Vec (Ty.Var "a_inner")) := by
    rw [nomGo.eq_def]
    simp only [e2]
  simp only [nominalize_all, nominalize, List.foldl_cons, List.foldl_nil, e3]
  rfl

end Candid
